import Mathlib

/-!
Shallow embedding of the link-and-postlink pipeline of the arb-os compiler
back end (file `src/link/mod.rs`), together with the data model it operates
on.  Rust `String` is modelled as `List Char`; Rust functions that can panic
are modelled as `Option`-valued functions where `none` marks the panic;
fallible Rust functions returning `Result` are modelled with `Except`.
Code of the repository that `src/link/mod.rs` calls but whose source is not
part of the corpus (the `mavm`, `compile`, `striplabels`, `xformcode` and
`optimize` modules) is modelled from the specification; each such definition
carries a doc comment starting with `Modelled from the spec:`.
-/

namespace ArbLink

/-- Rust `String` / `&str`, modelled as a list of characters. -/
abbrev Str := List Char

/-- Association-list lookup with decidable key equality; models map lookup. -/
def alookup {α β : Type} [DecidableEq α] (k : α) : List (α × β) → Option β
  | [] => Option.none
  | (k', v) :: rest => if k' = k then some v else alookup k rest

/-- Association-list insert with overwrite; models `HashMap`/`BTreeMap` insert. -/
def ainsert {α β : Type} [DecidableEq α] (m : List (α × β)) (k : α) (v : β) :
    List (α × β) :=
  if (alookup k m).isSome then
    m.map (fun kv => if kv.1 = k then (k, v) else kv)
  else m ++ [(k, v)]

/-- Models `HashMap::extend`: insert every binding of `news` into `old`. -/
def aextend {α β : Type} [DecidableEq α] (old news : List (α × β)) :
    List (α × β) :=
  news.foldl (fun m kv => ainsert m kv.1 kv.2) old

/-- Decimal rendering of a `Nat`, accumulator form (most significant
first), with explicit fuel so the definition is structural and computes
inside the kernel; `natChars` supplies sufficient fuel. -/
def natCharsFuel : Nat → Nat → List Char → List Char
  | 0, _, acc => acc
  | fuel + 1, n, acc =>
    let d := Char.ofNat (48 + n % 10)
    if n < 10 then d :: acc else natCharsFuel fuel (n / 10) (d :: acc)

/-- Decimal rendering of a `Nat`; models Rust's `Display for usize`. -/
def natChars (n : Nat) : Str := natCharsFuel (n + 1) n []

/-- Accumulator loop of decimal parsing. -/
def parseDigitsGo : List Char → Nat → Option Nat
  | [], acc => some acc
  | c :: cs, acc =>
    if 48 ≤ c.toNat ∧ c.toNat ≤ 57 then
      parseDigitsGo cs (acc * 10 + (c.toNat - 48))
    else Option.none

/-- Models Rust's `str::parse::<usize>` on the inputs that occur here:
decimal digits parse to the number, anything else (or empty) fails. -/
def parseDigits (s : Str) : Option Nat :=
  match s with
  | [] => Option.none
  | _ => parseDigitsGo s 0

/-- The key separator used by `SerializableTypeTree`: the string `", "`. -/
def sepChars : Str := [',', ' ']

/-- Does `s` contain the separator `", "` as a contiguous substring? -/
def containsSep : Str → Bool
  | [] => false
  | c :: rest => (sepChars.isPrefixOf (c :: rest) || containsSep rest)

/-- Splitting loop with explicit fuel so the definition is structural and
computes inside the kernel; `splitOnSep` supplies sufficient fuel. -/
def splitOnSepFuel : Nat → Str → List Str
  | 0, _ => [[]]
  | fuel + 1, s =>
    match s with
    | [] => [[]]
    | c :: rest =>
      if sepChars.isPrefixOf (c :: rest) then
        [] :: splitOnSepFuel fuel (List.drop sepChars.length (c :: rest))
      else
        match splitOnSepFuel fuel rest with
        | [] => [[c]]
        | piece :: pieces => (c :: piece) :: pieces

/-- Splits a string on the separator `", "`; models Rust's
`str::split(", ")` (always returns at least one piece). -/
def splitOnSep (s : Str) : List Str := splitOnSepFuel (s.length + 1) s

/-- Modelled from the spec: `compile::comma_list` joins path segments with
the fixed separator `", "` ("joining path segments and the id with a fixed
separator"). -/
def comma_list : List Str → Str
  | [] => []
  | [s] => s
  | s :: t :: rest => s ++ sepChars ++ comma_list (t :: rest)

/-- Source-code location attached to instructions; the pipeline only carries
it around, so it is modelled as an opaque numeric identifier.
Modelled from the spec: `pos::Location`. -/
abbrev Location := Nat

/-- Per-instruction debug attributes; the linker reads `codegen_print`.
Modelled from the spec: `compile::DebugInfo` attributes. -/
structure Attributes where
  codegen_print : Bool
  deriving DecidableEq

/-- Debug information attached to every instruction.
Modelled from the spec: `compile::DebugInfo`. -/
structure DebugInfo where
  location : Option Location
  attributes : Attributes
  deriving DecidableEq

/-- Models `DebugInfo::default()`. -/
def DebugInfo.default : DebugInfo := ⟨Option.none, ⟨false⟩⟩

/-- Label identity, as used for symbolic control-flow targets. -/
abbrev Label := Nat

/-- Modelled from the spec: `mavm::Value` is a "tagged union over
{ Integer, Tuple, CodePointer, None, Buffer, ... }"; symbolic label
references appear as operands, so a `label` case is included.  Variants the
linker never constructs or inspects are omitted. -/
inductive Value : Type
  | int (n : Nat)
  | tuple (elems : List Value)
  | codePoint (addr : Nat)
  | label (l : Label)
  | none

mutual

/-- Decidable equality on `Value` (the nested `List Value` in `tuple`
prevents automatic derivation). -/
def Value.decEq : (a b : Value) → Decidable (a = b)
  | .int m, .int n =>
    if h : m = n then isTrue (by rw [h])
    else isFalse (by simp only [Value.int.injEq]; exact h)
  | .int _, .tuple _ => isFalse (fun h => Value.noConfusion h)
  | .int _, .codePoint _ => isFalse (fun h => Value.noConfusion h)
  | .int _, .label _ => isFalse (fun h => Value.noConfusion h)
  | .int _, .none => isFalse (fun h => Value.noConfusion h)
  | .tuple _, .int _ => isFalse (fun h => Value.noConfusion h)
  | .tuple xs, .tuple ys =>
    match Value.decEqList xs ys with
    | isTrue h => isTrue (by rw [h])
    | isFalse h => isFalse (by simp only [Value.tuple.injEq]; exact h)
  | .tuple _, .codePoint _ => isFalse (fun h => Value.noConfusion h)
  | .tuple _, .label _ => isFalse (fun h => Value.noConfusion h)
  | .tuple _, .none => isFalse (fun h => Value.noConfusion h)
  | .codePoint _, .int _ => isFalse (fun h => Value.noConfusion h)
  | .codePoint _, .tuple _ => isFalse (fun h => Value.noConfusion h)
  | .codePoint a, .codePoint b =>
    if h : a = b then isTrue (by rw [h])
    else isFalse (by simp only [Value.codePoint.injEq]; exact h)
  | .codePoint _, .label _ => isFalse (fun h => Value.noConfusion h)
  | .codePoint _, .none => isFalse (fun h => Value.noConfusion h)
  | .label _, .int _ => isFalse (fun h => Value.noConfusion h)
  | .label _, .tuple _ => isFalse (fun h => Value.noConfusion h)
  | .label _, .codePoint _ => isFalse (fun h => Value.noConfusion h)
  | .label a, .label b =>
    if h : a = b then isTrue (by rw [h])
    else isFalse (by simp only [Value.label.injEq]; exact h)
  | .label _, .none => isFalse (fun h => Value.noConfusion h)
  | .none, .int _ => isFalse (fun h => Value.noConfusion h)
  | .none, .tuple _ => isFalse (fun h => Value.noConfusion h)
  | .none, .codePoint _ => isFalse (fun h => Value.noConfusion h)
  | .none, .label _ => isFalse (fun h => Value.noConfusion h)
  | .none, .none => isTrue rfl

/-- Decidable equality on lists of values. -/
def Value.decEqList : (xs ys : List Value) → Decidable (xs = ys)
  | [], [] => isTrue rfl
  | [], _ :: _ => isFalse (fun h => List.noConfusion h)
  | _ :: _, [] => isFalse (fun h => List.noConfusion h)
  | x :: xs, y :: ys =>
    match Value.decEq x y with
    | isFalse h => isFalse (by simp only [List.cons.injEq]; intro hc; exact h hc.1)
    | isTrue h1 =>
      match Value.decEqList xs ys with
      | isTrue h2 => isTrue (by rw [h1, h2])
      | isFalse h2 => isFalse (by simp only [List.cons.injEq]; intro hc; exact h2 hc.2)

end

instance : DecidableEq Value := Value.decEq

/-- Concrete AVM machine opcodes used by the linker (a representative
subset; `Tget` is the native one-step tuple field access that the tuple
normalizer lowers flat accesses into). Modelled from the spec: the
"Concrete" opcode case. -/
inductive AVMOpcode : Type
  | Rpush
  | Rset
  | Noop
  | Pop
  | Tget
  deriving DecidableEq

/-- Modelled from the spec: `mavm::Opcode` is "Concrete | Virtual |
LabelMarker"; `AVMOpcode` is the concrete case, `Label` the label-marker
case, `TupleGet` the virtual "direct field access by flat index into a
value" that tuple normalization must rewrite (§4.3), and `Virtual` the
remaining machine-independent pseudo-operations. -/
inductive Opcode : Type
  | AVMOpcode (op : AVMOpcode)
  | Label (l : Label)
  | TupleGet (offset : Nat) (size : Nat)
  | Virtual (name : Str)
  deriving DecidableEq

/-- Is this opcode a concrete machine opcode? -/
def Opcode.isConcrete : Opcode → Bool
  | .AVMOpcode _ => true
  | _ => false

/-- Rendering of a concrete opcode, for error messages. -/
def AVMOpcode.render : AVMOpcode → Str
  | .Rpush => ("Rpush").data
  | .Rset => ("Rset").data
  | .Noop => ("Noop").data
  | .Pop => ("Pop").data
  | .Tget => ("Tget").data

/-- Modelled from the spec: the `Display` rendering of an opcode, used in
the virtual-opcode internal error message. -/
def Opcode.render : Opcode → Str
  | .AVMOpcode op => op.render
  | .Label l => ("Label(").data ++ natChars l ++ (")").data
  | .TupleGet offset size =>
    ("TupleGet(").data ++ natChars offset ++ sepChars ++ natChars size
      ++ (")").data
  | .Virtual s => s

/-- Modelled from the spec: `mavm::Instruction` is
"{ opcode, immediate: optional Value, debug_info }".  The Rust type is
generic over the opcode type; the embedding keeps the general `Opcode` and
expresses concreteness through `Opcode.isConcrete`. -/
structure Instruction where
  opcode : Opcode
  immediate : Option Value
  debug_info : DebugInfo
  deriving DecidableEq

/-- Models `Instruction::from_opcode`. -/
def Instruction.from_opcode (op : Opcode) (d : DebugInfo) : Instruction :=
  ⟨op, Option.none, d⟩

/-- Models `Instruction::from_opcode_imm`. -/
def Instruction.from_opcode_imm (op : Opcode) (v : Value) (d : DebugInfo) :
    Instruction :=
  ⟨op, some v, d⟩

/-- Models `Instruction::new` on a concrete opcode (the Rust code builds an
`Instruction<AVMOpcode>`; here concreteness is recorded by the
`Opcode.AVMOpcode` constructor). -/
def Instruction.new (op : AVMOpcode) (imm : Option Value) (d : DebugInfo) :
    Instruction :=
  ⟨.AVMOpcode op, imm, d⟩

/-- Native tuple width of the machine (`xformcode::TUPLE_SIZE`).
Modelled from the spec: "native tuple width: fixed maximum arity of a
machine-level tuple value", a small positive constant, 8 in this machine. -/
def TUPLE_SIZE : Nat := 8

/-- Chunking loop with explicit fuel so the definition is structural;
`chunksOfWidth` supplies sufficient fuel. -/
def chunksFuel {α : Type} : Nat → List α → List (List α)
  | 0, _ => []
  | fuel + 1, l =>
    match l with
    | [] => []
    | x :: xs =>
      (x :: xs).take TUPLE_SIZE :: chunksFuel fuel ((x :: xs).drop TUPLE_SIZE)

/-- Splits a list into contiguous chunks of at most `TUPLE_SIZE` elements. -/
def chunksOfWidth {α : Type} (l : List α) : List (List α) :=
  chunksFuel (l.length + 1) l

/-- Tree-building loop with explicit fuel so the definition is structural;
`buildTree` supplies sufficient fuel (the length strictly shrinks at each
wrapping step). -/
def buildTreeFuel : Nat → List Value → Value
  | 0, l => Value.tuple l
  | fuel + 1, l =>
    if l.length ≤ TUPLE_SIZE then Value.tuple l
    else buildTreeFuel fuel ((chunksOfWidth l).map Value.tuple)

/-- Builds a balanced nested-tuple tree over the given leaves.
Modelled from the spec: "partition its elements into native_width
roughly-equal contiguous groups, recursively normalize each group, and wrap
the groups in a new native-width tuple". -/
def buildTree (l : List Value) : Value := buildTreeFuel l.length l

/-- Modelled from the spec: `xformcode::make_uninitialized_tuple` allocates
"an uninitialized globals container of the correct size" — a tuple tree
with one `Value.none` slot per global. -/
def make_uninitialized_tuple (size : Nat) : Value :=
  buildTree (List.replicate size Value.none)

mutual

/-- Modelled from the spec: `Value::replace_last_none` replaces the
placeholder (absent) value — the final `none` slot, following the last
element of nested tuples — with the supplied value; used by the jump-table
embedder ("replacing its placeholder (absent) value with the finalized
jump-table value"). -/
def Value.replace_last_none : Value → Value → Value
  | .none, new => new
  | .tuple l, new => .tuple (replaceLastInList l new)
  | v, _ => v

/-- Replaces the placeholder inside the last element of a list. -/
def replaceLastInList : List Value → Value → List Value
  | [], _ => []
  | [x], new => [Value.replace_last_none x new]
  | x :: y :: xs, new => x :: replaceLastInList (y :: xs) new

end

/-- The error type of the pipeline; models `compile::CompileError` as
constructed by `CompileError::new(title, description, locations)`. -/
structure CompileError where
  title : Str
  description : Str
  location : List Location
  deriving DecidableEq

/-- Models `CompileError::new`. -/
def CompileError.new (title description : Str) (location : List Location) :
    CompileError :=
  ⟨title, description, location⟩

/-- Opaque payload of a type-tree entry; stands for the `(Type, String)`
pair the real tree stores.  Modelled from the spec: the tree maps keys "to
type information"; the linker never inspects the payload. -/
abbrev TypeInfo := Nat

/-- Modelled from the spec: `compile::TypeTree` maps
"(module_path_sequence, numeric_id)" keys to type information; the hash map
is modelled as an association list. -/
abbrev TypeTree := List ((List Str × Nat) × TypeInfo)

/-- Mirrors `SerializableTypeTree` (src/link/mod.rs:30): the same bindings
under a single delimited string key. -/
structure SerializableTypeTree where
  inner : List (Str × TypeInfo)
  deriving DecidableEq

/-- The string key of one type-tree entry:
`format!("{}, {}", comma_list(&path), id)`. -/
def typeTreeKey (path : List Str) (id : Nat) : Str :=
  comma_list path ++ sepChars ++ natChars id

/-- Mirrors `SerializableTypeTree::from_type_tree` (src/link/mod.rs:36):
each `((path, id), tipe)` binding is inserted under its delimited string
key. -/
def SerializableTypeTree.from_type_tree (tree : TypeTree) : SerializableTypeTree :=
  ⟨tree.foldl (fun m e => ainsert m (typeTreeKey e.1.1 e.1.2) e.2) []⟩

/-- Mirrors `SerializableTypeTree::into_type_tree` (src/link/mod.rs:43):
split each key on the separator, parse the trailing numeric suffix, rebuild
the composite key.  The two `expect` calls are panics, modelled by
`Option.none`. -/
def SerializableTypeTree.into_type_tree (s : SerializableTypeTree) :
    Option TypeTree :=
  s.inner.foldlM
    (fun tree e => do
      let x := splitOnSep e.1
      let lastPart ← x.getLast?
      let id ← parseDigits lastPart
      pure (ainsert tree (x.dropLast, id) e.2))
    ([] : TypeTree)

/-- Import generated by a `use` statement (src/link/mod.rs:124). -/
structure Import where
  path : List Str
  name : Str
  unique_id : Nat
  id : Option Nat
  location : Option Location
  deriving DecidableEq

/-- Modelled from the spec: the 64-bit state of `DefaultHasher` folded over
a string — "a deterministic hash"; the spec documents the scheme as
non-cryptographic and collision-prone (§9). -/
def strHashAux : Nat → Str → Nat
  | h, [] => h
  | h, c :: cs => strHashAux ((h * 31 + c.toNat) % 2 ^ 64) cs

/-- Mirrors `Import::unique_id` (src/link/mod.rs:171): a deterministic
64-bit hash of the module path and the name (renamed: Lean does not allow a
definition named after the `unique_id` field).  The hasher itself is
modelled from the spec (see `strHashAux`). -/
def Import.unique_id_of (path : List Str) (name : Str) : Nat :=
  ((path.foldl (fun h s => (h * 31 + strHashAux 0 s) % 2 ^ 64) 0) * 31
      + strHashAux 0 name) % 2 ^ 64

/-- Mirrors `Import::new` (src/link/mod.rs:138). -/
def Import.new (path : List Str) (name : Str) (id : Option Nat)
    (location : Option Location) : Import :=
  ⟨path, name, Import.unique_id_of path name, id, location⟩

/-- Mirrors `Import::new_builtin` (src/link/mod.rs:158). -/
def Import.new_builtin (virtual_file : Str) (name : Str) : Import :=
  ⟨[("core").data, virtual_file], name,
    Import.unique_id_of [("core").data, virtual_file] name,
    Option.none, Option.none⟩

/-- Auxiliary file information merged into the artifact; the pipeline only
carries it around, so it is modelled as opaque data.
Modelled from the spec: `compile::FileInfo`. -/
abbrev FileInfo := Nat

/-- Modelled from the spec: `compile::SourceFileMap` maps code-offset
ranges to originating source files; the linker only calls `new_empty`,
`push` and `get(0)` on it. -/
structure SourceFileMap where
  entries : List (Nat × Str)
  deriving DecidableEq

/-- Models `SourceFileMap::new_empty`. -/
def SourceFileMap.new_empty : SourceFileMap := ⟨[]⟩

/-- Models `SourceFileMap::push`: record that the next `size` code offsets
come from `file`. -/
def SourceFileMap.push (m : SourceFileMap) (size : Nat) (file : Str) :
    SourceFileMap :=
  ⟨m.entries ++ [(size, file)]⟩

/-- Models `SourceFileMap::get`: the file recorded for a code offset; the
linker only asks for offset 0. -/
def SourceFileMap.get (m : SourceFileMap) (_offset : Nat) : Str :=
  match m.entries with
  | [] => []
  | e :: _ => e.2

/-- Global variable record.  Modelled from the spec: `compile::GlobalVar`
is "{ id, name, type, location }"; the linker additionally reads its
`debug_info`. -/
structure GlobalVar where
  id : Nat
  name : Str
  debug_info : DebugInfo
  deriving DecidableEq

/-- A compiled translation unit.  Modelled from the spec: a pre-link
program is "{ code, globals, source_file_map, file_info_chart,
type_tree }" (the field set `link` reads and `CompiledProgram::new`
rebuilds). -/
structure CompiledProgram where
  code : List Instruction
  globals : List GlobalVar
  source_file_map : Option SourceFileMap
  file_info_chart : List (Nat × FileInfo)
  type_tree : TypeTree
  deriving DecidableEq

/-- Models `CompiledProgram::new`. -/
def CompiledProgram.new (code : List Instruction) (globals : List GlobalVar)
    (source_file_map : Option SourceFileMap)
    (file_info_chart : List (Nat × FileInfo)) (type_tree : TypeTree) :
    CompiledProgram :=
  ⟨code, globals, source_file_map, file_info_chart, type_tree⟩

/-- Relocation of a single immediate: code addresses are shifted by the
unit's starting offset.  Modelled from the spec: relocation shifts "every
internal code address" (label identities are names, not addresses, and are
not shifted). -/
def relocate_value (int_offset : Nat) : Value → Value
  | .codePoint a => .codePoint (a + int_offset)
  | v => v

/-- Relocation of one instruction: its immediate's code addresses are
shifted.  Modelled from the spec (§4.1). -/
def relocate_insn (int_offset : Nat) (insn : Instruction) : Instruction :=
  ⟨insn.opcode, insn.immediate.map (relocate_value int_offset), insn.debug_info⟩

/-- Modelled from the spec: `CompiledProgram::relocate` produces a new unit
whose instructions are shifted by `int_offset` and returns the function
offset the next unit continues from ("a running function-offset counter is
carried across units"); the spec gives no formula for the returned counter,
so it is carried through unchanged. -/
def CompiledProgram.relocate (p : CompiledProgram) (int_offset : Nat)
    (func_offset : Nat) (source_file_map : Option SourceFileMap) :
    CompiledProgram × Nat :=
  (⟨p.code.map (relocate_insn int_offset), p.globals, source_file_map,
      p.file_info_chart, p.type_tree⟩,
    func_offset)

/-- The starting offsets recorded by `link`'s first loop
(src/link/mod.rs:314-329): `insns_so_far` starts at the prologue length 3
and advances by each unit's code length. -/
def link_int_offsets_from (start : Nat) : List CompiledProgram → List Nat
  | [] => []
  | p :: ps => start :: link_int_offsets_from (start + p.code.length) ps

/-- The `int_offsets` vector computed by `link`. -/
def link_int_offsets (progs : List CompiledProgram) : List Nat :=
  link_int_offsets_from 3 progs

/-- The merged source-file map built by `link`'s first loop. -/
def link_merged_sfm (progs : List CompiledProgram) : SourceFileMap :=
  progs.foldl
    (fun m p =>
      m.push p.code.length
        (match p.source_file_map with
          | some sfm => sfm.get 0
          | Option.none => []))
    SourceFileMap.new_empty

/-- The merged file-info chart built by `link`'s second loop. -/
def link_merged_fic (progs : List CompiledProgram) : List (Nat × FileInfo) :=
  progs.foldl (fun m p => aextend m p.file_info_chart) []

/-- The relocation loop of `link` (src/link/mod.rs:331-342): each unit is
relocated to its recorded offset, the function-offset counter advancing by
one past each unit's returned counter. -/
def relocate_all : List (CompiledProgram × Nat) → Nat → List CompiledProgram
  | [], _ => []
  | (p, off) :: rest, func_offset =>
    let r := p.relocate off func_offset p.source_file_map
    r.1 :: relocate_all rest (r.2 + 1)

/-- The three-instruction initialization prologue (src/link/mod.rs:352-380). -/
def link_prologue (test_mode : Bool) (globals : List GlobalVar) :
    List Instruction :=
  if test_mode then
    [Instruction.from_opcode_imm (.AVMOpcode .Noop) Value.none
        DebugInfo.default,
      Instruction.from_opcode_imm (.AVMOpcode .Noop)
        (make_uninitialized_tuple globals.length) DebugInfo.default,
      Instruction.from_opcode (.AVMOpcode .Rset) DebugInfo.default]
  else
    [Instruction.from_opcode (.AVMOpcode .Rpush) DebugInfo.default,
      Instruction.from_opcode_imm (.AVMOpcode .Noop) Value.none
        DebugInfo.default,
      Instruction.from_opcode_imm (.AVMOpcode .Rset)
        (make_uninitialized_tuple globals.length) DebugInfo.default]

/-- Sets the `codegen_print` debug attribute of an instruction. -/
def mark_codegen_print (insn : Instruction) : Instruction :=
  ⟨insn.opcode, insn.immediate, ⟨insn.debug_info.location, ⟨true⟩⟩⟩

/-- Mirrors `link` (src/link/mod.rs:307): merges the translation units into
one program behind the initialization prologue.  Indexing `progs[0]` on an
empty unit list is a panic, modelled by `Option.none`. -/
def link (progs_in : List CompiledProgram) (globals : List GlobalVar)
    (test_mode : Bool) : Option CompiledProgram :=
  match progs_in with
  | [] => Option.none
  | p0 :: _ =>
    let progs := progs_in
    let type_tree := p0.type_tree
    let int_offsets := link_int_offsets progs
    let merged_source_file_map := link_merged_sfm progs
    let merged_file_info_chart := link_merged_fic progs
    let relocated_progs := relocate_all (progs.zip int_offsets) 0
    let linked_code := link_prologue test_mode globals
    let linked_code :=
      if globals.any (fun x => x.debug_info.attributes.codegen_print) then
        linked_code.map mark_codegen_print
      else linked_code
    some (CompiledProgram.new
      (linked_code ++ (relocated_progs.map (fun p => p.code)).flatten)
      globals (some merged_source_file_map) merged_file_info_chart type_tree)

/-- Scan loop of label-resolution Phase A.  Walks the code with the current
instruction index, the label definitions seen so far, and the pending
jump-table entries collected so far. -/
def fixNFAux : List Instruction → Nat → List (Label × Nat) → List Label →
    List Instruction × List Label
  | [], _, _, jt => ([], jt)
  | insn :: rest, idx, defs, jt =>
    match insn.opcode with
    | .Label l =>
      let r := fixNFAux rest (idx + 1) ((l, idx) :: defs) jt
      (insn :: r.1, r.2)
    | _ =>
      match insn.immediate with
      | some (.label l) =>
        match alookup l defs with
        | some a =>
          let r := fixNFAux rest (idx + 1) defs jt
          (⟨insn.opcode, some (.codePoint a), insn.debug_info⟩ :: r.1, r.2)
        | Option.none =>
          let jt' := if l ∈ jt then jt else jt ++ [l]
          let r := fixNFAux rest (idx + 1) defs jt'
          (insn :: r.1, r.2)
      | _ =>
        let r := fixNFAux rest (idx + 1) defs jt
        (insn :: r.1, r.2)

/-- Modelled from the spec: `striplabels::fix_nonforward_labels` (Phase A,
§4.2) — one scan; references whose target label is already defined are
replaced by the concrete address, forward references are left symbolic and
recorded as pending jump-table entries keyed by label identity with stable
insertion order; label-marker instructions stay in place (Phase B removes
them).  The spec gives no role to the numeric second argument that the
caller passes, so it is unused. -/
def fix_nonforward_labels (code : List Instruction) (_n : Nat) :
    List Instruction × List Label :=
  fixNFAux code 0 [] []

/-- Normalization loop with explicit fuel so the definition is structural;
`fix_value` supplies sufficient fuel (`sizeOf` dominates the nesting
depth). -/
def fixValueFuel : Nat → Value → Value
  | 0, v => v
  | fuel + 1, v =>
    match v with
    | .tuple l => buildTree (l.map (fixValueFuel fuel))
    | v => v

mutual

/-- An executable size measure on values, dominating the nesting depth. -/
def Value.vsize : Value → Nat
  | .tuple l => vsizeList l + 1
  | _ => 1

/-- Total size of a list of values. -/
def vsizeList : List Value → Nat
  | [] => 0
  | v :: vs => Value.vsize v + vsizeList vs

end

/-- Tuple normalization of a single value: a tuple whose arity exceeds the
native width is rebuilt as a balanced native-width tree over the same
leaves, recursively in every element.  Modelled from the spec (§4.3). -/
def fix_value (v : Value) : Value := fixValueFuel v.vsize v

/-- Path loop of `access_path`, with explicit fuel so the definition is
structural (the logical arity strictly shrinks at every level). -/
def access_path_fuel : Nat → Nat → Nat → List Nat
  | 0, offset, _ => [offset]
  | fuel + 1, offset, size =>
    if size ≤ TUPLE_SIZE then [offset]
    else
      access_path_fuel fuel (offset / TUPLE_SIZE)
          ((size + TUPLE_SIZE - 1) / TUPLE_SIZE)
        ++ [offset % TUPLE_SIZE]

/-- The sequence of nested one-step accesses (outermost first) that
reaches flat index `offset` of a logical tuple of arity `size`, in the
tree shape `buildTree` produces: leaves are grouped `TUPLE_SIZE` at a
time, so the innermost step is `offset % TUPLE_SIZE` and the outer steps
address the wrapped groups.  Modelled from the spec (§4.3): the rewriting
must match "the tree shape actually produced". -/
def access_path (offset size : Nat) : List Nat :=
  access_path_fuel size offset size

/-- Tuple normalization of one instruction: a virtual flat-index field
access becomes "the equivalent sequence of nested accesses matching the
tree shape actually produced" (§4.3), one concrete `Tget` per tree level;
every other instruction keeps its opcode and has its immediate rewritten
into native-width form. -/
def fix_tuple_insn (insn : Instruction) : List Instruction :=
  match insn.opcode with
  | .TupleGet offset size =>
    (access_path offset size).map (fun j =>
      Instruction.from_opcode_imm (.AVMOpcode .Tget) (Value.int j)
        insn.debug_info)
  | _ => [⟨insn.opcode, insn.immediate.map fix_value, insn.debug_info⟩]

/-- Modelled from the spec: `xformcode::fix_tuple_size` (§4.3) rewrites
every instruction immediate into native-width form and lowers every
flat-index field-access opcode into the equivalent multi-step nested
access sequence; it returns a `Result` whose error case (an
unrepresentable value shape) cannot arise for the value model used here. -/
def fix_tuple_size (code : List Instruction) (_num_globals : Nat) :
    Except CompileError (List Instruction) :=
  .ok ((code.map fix_tuple_insn).flatten)

/-- Modelled from the spec: `optimize::peephole` (§4.4) — strictly local
pattern rewriting; the documented example pattern, a push (a `Noop` with an
immediate) immediately followed by its own `Pop`, is eliminated. -/
def peephole : List Instruction → List Instruction
  | [] => []
  | [i] => [i]
  | i1 :: i2 :: rest =>
    if i1.opcode = .AVMOpcode .Noop ∧ i1.immediate.isSome
        ∧ i2.opcode = .AVMOpcode .Pop ∧ i2.immediate = Option.none then
      peephole rest
    else i1 :: peephole (i2 :: rest)

/-- Final label addresses: the address of each label definition once the
marker instructions themselves are removed from the stream. -/
def label_addrs : List Instruction → Nat → List (Label × Nat)
  | [], _ => []
  | insn :: rest, idx =>
    match insn.opcode with
    | .Label l => (l, idx) :: label_addrs rest idx
    | _ => label_addrs rest (idx + 1)

/-- The `UndefinedLabel` error (§7). -/
def undefined_label_error (l : Label) : CompileError :=
  CompileError.new (("Undefined label").data)
    (("reference to undefined label ").data ++ natChars l) []

mutual

/-- Resolves every symbolic label reference inside a value to its final
concrete code address; an undefined label is a fatal error.  Modelled from
the spec (Phase B, §4.2). -/
def resolve_value (defs : List (Label × Nat)) : Value → Except CompileError Value
  | .label l =>
    match alookup l defs with
    | some a => .ok (.codePoint a)
    | Option.none => .error (undefined_label_error l)
  | .tuple vs => (resolve_value_list defs vs).map Value.tuple
  | v => .ok v

/-- Resolves a list of values. -/
def resolve_value_list (defs : List (Label × Nat)) :
    List Value → Except CompileError (List Value)
  | [] => .ok []
  | v :: vs => do
    let v' ← resolve_value defs v
    let vs' ← resolve_value_list defs vs
    .ok (v' :: vs')

end

/-- Is this instruction a label marker? -/
def isLabelMarker (insn : Instruction) : Bool :=
  match insn.opcode with
  | .Label _ => true
  | _ => false

/-- The label defined by a label-marker opcode, if any. -/
def opLabel : Opcode → Option Label
  | .Label l => some l
  | _ => Option.none

/-- The label defined by a label-marker instruction, if any. -/
def markerLabel (insn : Instruction) : Option Label := opLabel insn.opcode

/-- Modelled from the spec: `striplabels::strip_labels` (Phase B, §4.2) —
with all definitions known, every remaining symbolic reference is replaced
by its concrete address, the label-marker instructions are removed, and the
jump table is finalized to the labels' resolved addresses; a label never
defined anywhere is the fatal `UndefinedLabel` error. -/
def strip_labels (code : List Instruction) (jump_table : List Label) :
    Except CompileError (List Instruction × List Nat) := do
  let defs := label_addrs code 0
  let jump_table_final ← jump_table.mapM (fun l =>
    match alookup l defs with
    | some a => .ok a
    | Option.none => .error (undefined_label_error l))
  let code' ← (code.filter (fun i => ¬ isLabelMarker i)).mapM (fun i => do
    match i.immediate with
    | some v => do
      let v' ← resolve_value defs v
      pure (⟨i.opcode, some v', i.debug_info⟩ : Instruction)
    | Option.none => pure i)
  .ok (code', jump_table_final)

/-- Modelled from the spec: `xformcode::jump_table_to_value` materializes
the finalized jump table "as a single tuple-encoded constant" of code
pointers. -/
def jump_table_to_value (jump_table : List Nat) : Value :=
  buildTree (jump_table.map Value.codePoint)

/-- Mirrors `hardcode_jump_table_into_register` (src/link/mod.rs:291): the
bootstrap instruction at the mode-dependent offset gets its placeholder
operand replaced by the jump-table value.  Indexing past the end of the
code, or an absent immediate (`unwrap`), is a panic, modelled by
`Option.none`. -/
def hardcode_jump_table_into_register (code : List Instruction)
    (jump_table : Value) (test_mode : Bool) : Option (List Instruction) :=
  let offset := if test_mode then 1 else 2
  match code.get? offset with
  | Option.none => Option.none
  | some insn =>
    match insn.immediate with
    | Option.none => Option.none
    | some old_imm =>
      some (code.set offset
        (Instruction.from_opcode_imm insn.opcode
          (old_imm.replace_last_none jump_table) insn.debug_info))

/-- Mirrors the final conversion step of `postlink_compile`
(src/link/mod.rs:250-263): every instruction must carry a concrete opcode;
the first instruction whose opcode is still virtual yields the fatal
internal "Postlink error" naming the opcode's rendering and location. -/
def finalize_code : List Instruction → Except CompileError (List Instruction)
  | [] => .ok []
  | insn :: rest =>
    match insn.opcode with
    | .AVMOpcode inner =>
      (finalize_code rest).map
        (fun r => Instruction.new inner insn.immediate insn.debug_info :: r)
    | op =>
      .error (CompileError.new (("Postlink error").data)
        (("In final output encountered virtual opcode ").data ++ op.render)
        insn.debug_info.location.toList)

/-- The ambient external environment of the process: the contents of the
configuration file `arb_os/constants.json`, if present and well formed.
Modelled from the spec: "a versioning identifier obtained from an external
configuration source" (§4.6). -/
structure ExternalEnv where
  constants_file : Option (List (Str × Nat))

/-- Modelled from the spec:
`init_constant_table(Some(Path::new("arb_os/constants.json")))` reads the
constant table from the external configuration file; failure to read or
parse it is the `unwrap` panic in the caller. -/
def init_constant_table (env : ExternalEnv) : Option (List (Str × Nat)) :=
  env.constants_file

/-- Modelled from the spec: `Value::trim_to_u64` truncates a 256-bit
constant to 64 bits. -/
def trim_to_u64 (n : Nat) : Nat := n % 2 ^ 64

/-- The `ArbosVersionNumber` value obtained from the external environment,
as read by `postlink_compile` (src/link/mod.rs:277-282); `Option.none`
models the two `unwrap` panics (unreadable file, missing key). -/
def arbos_version_from (env : ExternalEnv) : Option Nat :=
  match init_constant_table env with
  | Option.none => Option.none
  | some table =>
    match alookup (("ArbosVersionNumber").data) table with
    | Option.none => Option.none
    | some v => some (trim_to_u64 v)

/-- The finished artifact (src/link/mod.rs:62). -/
structure LinkedProgram where
  arbos_version : Nat
  code : List Instruction
  static_val : Value
  globals : List GlobalVar
  file_info_chart : List (Nat × FileInfo)
  type_tree : SerializableTypeTree
  deriving DecidableEq

/-- `code_2` and the pending jump table of `postlink_compile`
(src/link/mod.rs:236-237). -/
def postlink_code2 (program : CompiledProgram) : List Instruction × List Label :=
  fix_nonforward_labels program.code (program.globals.length - 1)

/-- The instruction stream handed to the peephole optimizer: `code_3` of
`postlink_compile` (src/link/mod.rs:240), produced by tuple normalization
of `code_2`. -/
def postlink_peephole_input (program : CompiledProgram) :
    Except CompileError (List Instruction) :=
  fix_tuple_size (postlink_code2 program).1 program.globals.length

/-- `code_4` of `postlink_compile` (src/link/mod.rs:243): the peephole
optimizer's output. -/
def postlink_code4 (program : CompiledProgram) :
    Except CompileError (List Instruction) :=
  (postlink_peephole_input program).map peephole

/-- `code_5` and the finalized jump table of `postlink_compile`
(src/link/mod.rs:246): label stripping of `code_4`. -/
def postlink_code5 (program : CompiledProgram) :
    Except CompileError (List Instruction × List Nat) := do
  let code_4 ← postlink_code4 program
  strip_labels code_4 (postlink_code2 program).2

/-- The stream reaching the final conversion step: `code_5` after the
jump-table value is hardcoded into the bootstrap slot
(src/link/mod.rs:247-249).  `Option.none` is the indexing/`unwrap` panic
inside `hardcode_jump_table_into_register`. -/
def postlink_hardcoded (program : CompiledProgram) (test_mode : Bool) :
    Option (Except CompileError (List Instruction)) :=
  match postlink_code5 program with
  | .error e => some (.error e)
  | .ok (code_5, jump_table_final) =>
    (hardcode_jump_table_into_register code_5
        (jump_table_to_value jump_table_final) test_mode).map Except.ok

/-- Mirrors `postlink_compile` (src/link/mod.rs:182): the post-link
pipeline — Phase A label fixing, tuple normalization, peephole
optimization, label stripping, jump-table embedding, the concrete-opcode
conversion, and artifact assembly with the externally configured version.
The outer `Option` models panics; debug printing has no effect on the
result and is not modelled. -/
def postlink_compile (env : ExternalEnv) (program : CompiledProgram)
    (file_info_chart : List (Nat × FileInfo)) (test_mode : Bool)
    (_debug : Bool) : Option (Except CompileError LinkedProgram) :=
  match postlink_hardcoded program test_mode with
  | Option.none => Option.none
  | some (.error e) => some (.error e)
  | some (.ok code_5) =>
    match finalize_code code_5 with
    | .error e => some (.error e)
    | .ok code_final =>
      match arbos_version_from env with
      | Option.none => Option.none
      | some version =>
        some (.ok
          { arbos_version := version
            code := code_final
            static_val := Value.none
            globals := program.globals
            file_info_chart := aextend file_info_chart program.file_info_chart
            type_tree :=
              SerializableTypeTree.from_type_tree program.type_tree })

/-- A well-formed composite type-tree key: nonempty module path whose
segments do not contain the separator `", "`. -/
def goodKey (k : List Str × Nat) : Prop :=
  k.1 ≠ [] ∧ ∀ s ∈ k.1, containsSep s = false

instance (k : List Str × Nat) : Decidable (goodKey k) := by
  unfold goodKey; infer_instance

/-- One type-tree binding rendered to its serialized form. -/
def renderEntry (e : (List Str × Nat) × TypeInfo) : Str × TypeInfo :=
  (typeTreeKey e.1.1 e.1.2, e.2)

/-- Two translation units that agree on every field except possibly the
type tree. -/
def sameExceptTypeTree (p q : CompiledProgram) : Prop :=
  p.code = q.code ∧ p.globals = q.globals
    ∧ p.source_file_map = q.source_file_map
    ∧ p.file_info_chart = q.file_info_chart

/-- The jump-table patch slot of the stream reaching the embedder exists
and carries an immediate — the condition under which
`hardcode_jump_table_into_register` does not panic (vacuously true when
the pipeline fails before the embedder). -/
def patch_slot_ok (program : CompiledProgram) (test_mode : Bool) : Bool :=
  match postlink_code5 program with
  | .ok (code_5, _) =>
    ((code_5.get? (if test_mode then 1 else 2)).bind
        (fun i => i.immediate)).isSome
  | .error _ => true

/-! Concrete fixtures used by witnesses and counterexamples. -/

/-- A sample global variable. -/
def exGlobal : GlobalVar := ⟨0, ("g").data, DebugInfo.default⟩

/-- A sample translation unit with one forward label reference and the
matching label marker. -/
def exUnit : CompiledProgram :=
  ⟨[Instruction.from_opcode (.AVMOpcode .Noop) DebugInfo.default,
      Instruction.from_opcode_imm (.AVMOpcode .Noop) (Value.label 7)
        DebugInfo.default,
      Instruction.from_opcode (.Label 7) DebugInfo.default],
    [exGlobal], Option.none, [], [(([("mod").data], 1), 4)]⟩

/-- A second sample translation unit, two instructions long. -/
def exUnit2 : CompiledProgram :=
  ⟨[Instruction.from_opcode (.AVMOpcode .Pop) DebugInfo.default,
      Instruction.from_opcode (.AVMOpcode .Pop) DebugInfo.default],
    [], Option.none, [], [(([("other").data], 2), 6)]⟩

/-- A merged program of the shape `link` produces in test mode: prologue
followed by `exUnit`'s relocated instructions. -/
def exProg : CompiledProgram :=
  ⟨[Instruction.from_opcode_imm (.AVMOpcode .Noop) Value.none
        DebugInfo.default,
      Instruction.from_opcode_imm (.AVMOpcode .Noop)
        (make_uninitialized_tuple 1) DebugInfo.default,
      Instruction.from_opcode (.AVMOpcode .Rset) DebugInfo.default,
      Instruction.from_opcode (.AVMOpcode .Noop) DebugInfo.default,
      Instruction.from_opcode_imm (.AVMOpcode .Noop) (Value.label 7)
        DebugInfo.default,
      Instruction.from_opcode (.Label 7) DebugInfo.default],
    [exGlobal], Option.none, [], []⟩

/-- A merged program whose code retains a virtual (non-concrete, non-label)
opcode. -/
def exProgVirtual : CompiledProgram :=
  ⟨[Instruction.from_opcode_imm (.AVMOpcode .Noop) Value.none
        DebugInfo.default,
      Instruction.from_opcode_imm (.AVMOpcode .Noop)
        (make_uninitialized_tuple 1) DebugInfo.default,
      Instruction.from_opcode (.AVMOpcode .Rset) DebugInfo.default,
      Instruction.from_opcode (.Virtual (("MakeFrame").data))
        DebugInfo.default],
    [exGlobal], Option.none, [], []⟩

/-- The stream reaching the final conversion step when `exProgVirtual` is
post-linked in test mode: the virtual opcode survives up to that point. -/
def exProgVirtualC5 : List Instruction :=
  [⟨.AVMOpcode .Noop, some Value.none, DebugInfo.default⟩,
    ⟨.AVMOpcode .Noop, some (.tuple [.tuple []]), DebugInfo.default⟩,
    ⟨.AVMOpcode .Rset, Option.none, DebugInfo.default⟩,
    ⟨.Virtual (("MakeFrame").data), Option.none, DebugInfo.default⟩]

/-- A one-instruction program consisting of a single label marker. -/
def exMarkerProg : CompiledProgram :=
  ⟨[Instruction.from_opcode (.Label 0) DebugInfo.default],
    [], Option.none, [], []⟩

/-- `exUnit2` with its type tree emptied (all other fields unchanged). -/
def exUnit2tt : CompiledProgram :=
  ⟨exUnit2.code, exUnit2.globals, exUnit2.source_file_map,
    exUnit2.file_info_chart, []⟩

/-- What `link [exUnit] [exGlobal] true` produces. -/
def exLinked : CompiledProgram :=
  ⟨exProg.code, [exGlobal], some ⟨[(3, [])]⟩, [], exUnit.type_tree⟩

/-- What `link [exUnit, exUnit2] [exGlobal] true` produces. -/
def exLinked2 : CompiledProgram :=
  ⟨exProg.code
      ++ [Instruction.from_opcode (.AVMOpcode .Pop) DebugInfo.default,
        Instruction.from_opcode (.AVMOpcode .Pop) DebugInfo.default],
    [exGlobal], some ⟨[(3, []), (2, [])]⟩, [], exUnit.type_tree⟩

/-- The artifact `postlink_compile` produces from `exProg` in test mode
under `exEnv`. -/
def exProgOut : LinkedProgram :=
  ⟨35,
    [⟨.AVMOpcode .Noop, some Value.none, DebugInfo.default⟩,
      ⟨.AVMOpcode .Noop, some (.tuple [.tuple [.codePoint 5]]),
        DebugInfo.default⟩,
      ⟨.AVMOpcode .Rset, Option.none, DebugInfo.default⟩,
      ⟨.AVMOpcode .Noop, Option.none, DebugInfo.default⟩,
      ⟨.AVMOpcode .Noop, some (.codePoint 5), DebugInfo.default⟩],
    Value.none, [exGlobal], [], ⟨[]⟩⟩

/-- An external environment whose constants file carries version 35. -/
def exEnv : ExternalEnv := ⟨some [(("ArbosVersionNumber").data, 35)]⟩

/-- An external environment whose constants file carries version 36. -/
def exEnv2 : ExternalEnv := ⟨some [(("ArbosVersionNumber").data, 36)]⟩

/-- A type tree with a well-formed two-segment path. -/
def exTreeGood : TypeTree := [(([("mod").data, ("sub").data], 12), 9)]

/-- A type tree whose single path segment contains the separator. -/
def exTreeBad : TypeTree := [(([("a, b").data], 5), 42)]

/-- What `exTreeBad` becomes after the serialization round trip: the
segment is split at the embedded separator. -/
def exTreeBadParsed : TypeTree := [(([("a").data, ("b").data], 5), 42)]

/-! ## Theorems -/

/-- C8 (counterexample): two imports built by `Import::new` from the same
module path but distinct names receive equal `unique_id`s — the 64-bit
hash collides — so equality of `unique_id` does not imply equality of the
`(module path, name)` pairs, refuting the claimed "if and only if". -/
theorem C8_unique_id_collision :
    (Import.new [("m").data] (("Aa").data) Option.none Option.none).unique_id
      = (Import.new [("m").data] (("BB").data) Option.none
          Option.none).unique_id
    ∧ (Import.new [("m").data] (("Aa").data) Option.none Option.none).name
      ≠ (Import.new [("m").data] (("BB").data) Option.none
          Option.none).name := by
  exact ⟨rfl, by decide⟩

/-- C8 (amended): `unique_id` is a deterministic function of the
`(module path, name)` pair — `Import::new` and `Import::new_builtin` store
exactly the hash of that pair, so equal pairs always receive equal ids —
but the converse fails, since the 64-bit non-cryptographic hash can
collide on distinct pairs. -/
theorem C8_unique_id_deterministic :
    (∀ path name id loc,
        (Import.new path name id loc).unique_id
          = Import.unique_id_of path name)
    ∧ (∀ virtual_file name,
        (Import.new_builtin virtual_file name).unique_id
          = Import.unique_id_of [("core").data, virtual_file] name) :=
  ⟨fun _ _ _ _ => rfl, fun _ _ => rfl⟩

/-- C7 (counterexample): two runs of `postlink_compile` on identical
arguments but different contents of the external configuration file
produce artifacts with different `arbos_version`, refuting the claim that
the version is injected by the caller and independent of the external
configuration read at link time. -/
theorem C7_version_depends_on_external_config :
    (postlink_compile exEnv exProg [] true false).map
        (Except.map (fun lp => lp.arbos_version)) = some (.ok 35)
    ∧ (postlink_compile exEnv2 exProg [] true false).map
        (Except.map (fun lp => lp.arbos_version)) = some (.ok 36) :=
  ⟨rfl, rfl⟩

/-- Inverts a successful run of `postlink_compile` into the facts each
stage contributes. -/
theorem postlink_compile_ok_inv (env : ExternalEnv)
    (program : CompiledProgram) (fic : List (Nat × FileInfo)) (tm d : Bool)
    (lp : LinkedProgram)
    (h : postlink_compile env program fic tm d = some (.ok lp)) :
    ∃ code_5, postlink_hardcoded program tm = some (.ok code_5)
      ∧ finalize_code code_5 = .ok lp.code
      ∧ arbos_version_from env = some lp.arbos_version
      ∧ lp.static_val = Value.none
      ∧ lp.globals = program.globals
      ∧ lp.file_info_chart = aextend fic program.file_info_chart
      ∧ lp.type_tree = SerializableTypeTree.from_type_tree program.type_tree := by
  unfold postlink_compile at h
  cases h1 : postlink_hardcoded program tm with
  | none => rw [h1] at h; exact absurd h (by simp)
  | some r =>
    rw [h1] at h
    cases r with
    | error e => exact absurd h (by simp)
    | ok code_5 =>
      refine ⟨code_5, rfl, ?_⟩
      dsimp only at h
      cases h2 : finalize_code code_5 with
      | error e => rw [h2] at h; exact absurd h (by simp)
      | ok code_final =>
        rw [h2] at h
        cases h3 : arbos_version_from env with
        | none => rw [h3] at h; exact absurd h (by simp)
        | some version =>
          rw [h3] at h
          simp only [Option.some.injEq, Except.ok.injEq] at h
          subst h
          exact ⟨rfl, rfl, rfl, rfl, rfl, rfl⟩

/-- A successful final conversion only emits concrete opcodes. -/
theorem finalize_code_ok_concrete (code : List Instruction) :
    ∀ out, finalize_code code = .ok out →
      ∀ insn ∈ out, insn.opcode.isConcrete = true := by
  induction code with
  | nil =>
    intro out h insn hm
    simp only [finalize_code, Except.ok.injEq] at h
    subst h
    simp at hm
  | cons head rest ih =>
    intro out h insn hm
    unfold finalize_code at h
    cases hop : head.opcode with
    | AVMOpcode inner =>
      rw [hop] at h
      cases h2 : finalize_code rest with
      | error e => rw [h2] at h; exact absurd h (by simp [Except.map])
      | ok r =>
        rw [h2] at h
        simp only [Except.map, Except.ok.injEq] at h
        subst h
        rcases List.mem_cons.mp hm with h3 | h3
        · subst h3; rfl
        · exact ih r h2 insn h3
    | Label l => rw [hop] at h; exact absurd h (by simp)
    | TupleGet offset size => rw [hop] at h; exact absurd h (by simp)
    | Virtual s => rw [hop] at h; exact absurd h (by simp)

/-- If any instruction still carries a non-concrete opcode, the final
conversion fails with the "Postlink error" internal error naming the first
offending instruction's rendering and location. -/
theorem finalize_code_error_of_virtual (code : List Instruction) :
    (∃ insn ∈ code, insn.opcode.isConcrete = false) →
    ∃ e, finalize_code code = .error e
      ∧ e.title = ("Postlink error").data
      ∧ ∃ insn ∈ code, insn.opcode.isConcrete = false
        ∧ e.description
          = ("In final output encountered virtual opcode ").data
            ++ insn.opcode.render
        ∧ e.location = insn.debug_info.location.toList := by
  induction code with
  | nil => intro h; simp at h
  | cons head rest ih =>
    intro h
    cases hop : head.opcode with
    | AVMOpcode inner =>
      rcases h with ⟨insn, hm, hv⟩
      rcases List.mem_cons.mp hm with h3 | h3
      · subst h3; rw [hop] at hv; simp [Opcode.isConcrete] at hv
      · rcases ih ⟨insn, h3, hv⟩ with ⟨e, he, ht, insn2, hm2, hv2, hd, hl⟩
        refine ⟨e, ?_, ht, insn2, List.mem_cons_of_mem _ hm2, hv2, hd, hl⟩
        unfold finalize_code
        rw [hop, he]
        rfl
    | Label l =>
      refine ⟨CompileError.new (("Postlink error").data)
          (("In final output encountered virtual opcode ").data
            ++ head.opcode.render) head.debug_info.location.toList,
        ?_, rfl, head, List.mem_cons_self _ _, by rw [hop]; rfl, rfl, rfl⟩
      unfold finalize_code
      rw [hop]
    | TupleGet offset size =>
      refine ⟨CompileError.new (("Postlink error").data)
          (("In final output encountered virtual opcode ").data
            ++ head.opcode.render) head.debug_info.location.toList,
        ?_, rfl, head, List.mem_cons_self _ _, by rw [hop]; rfl, rfl, rfl⟩
      unfold finalize_code
      rw [hop]
    | Virtual s =>
      refine ⟨CompileError.new (("Postlink error").data)
          (("In final output encountered virtual opcode ").data
            ++ head.opcode.render) head.debug_info.location.toList,
        ?_, rfl, head, List.mem_cons_self _ _, by rw [hop]; rfl, rfl, rfl⟩
      unfold finalize_code
      rw [hop]

/-- C1: a successful `postlink_compile` emits only concrete (AVM) opcodes,
and whenever an instruction of the stream reaching the final conversion
step still carries a virtual opcode, `postlink_compile` returns the fatal
internal "Postlink error" carrying the offending opcode's rendering and
location instead of an artifact. -/
theorem C1_final_artifact_concrete :
    (∀ env program fic tm d lp,
        postlink_compile env program fic tm d = some (.ok lp) →
        ∀ insn ∈ lp.code, insn.opcode.isConcrete = true)
    ∧ (∀ env program fic tm d code_5,
        postlink_hardcoded program tm = some (.ok code_5) →
        (∃ insn ∈ code_5, insn.opcode.isConcrete = false) →
        ∃ e, postlink_compile env program fic tm d = some (.error e)
          ∧ e.title = ("Postlink error").data
          ∧ ∃ insn ∈ code_5, insn.opcode.isConcrete = false
            ∧ e.description
              = ("In final output encountered virtual opcode ").data
                ++ insn.opcode.render
            ∧ e.location = insn.debug_info.location.toList) := by
  constructor
  · intro env program fic tm d lp h insn hm
    rcases postlink_compile_ok_inv env program fic tm d lp h with
      ⟨code_5, _, hfin, _⟩
    exact finalize_code_ok_concrete code_5 lp.code hfin insn hm
  · intro env program fic tm d code_5 hhard hvirt
    rcases finalize_code_error_of_virtual code_5 hvirt with
      ⟨e, he, ht, insn, hm, hv, hd, hl⟩
    refine ⟨e, ?_, ht, insn, hm, hv, hd, hl⟩
    unfold postlink_compile
    rw [hhard]
    dsimp only
    rw [he]

/-- C1 (witness): a concrete program whose stream still carries the
virtual `MakeFrame` opcode at the final conversion step is rejected with
the internal "Postlink error". -/
theorem C1_final_artifact_concrete_witness :
    postlink_hardcoded exProgVirtual true = some (.ok exProgVirtualC5)
    ∧ ∃ e, postlink_compile exEnv exProgVirtual [] true false
        = some (.error e)
      ∧ e.title = ("Postlink error").data
      ∧ ∃ insn ∈ exProgVirtualC5, insn.opcode.isConcrete = false
        ∧ e.description
          = ("In final output encountered virtual opcode ").data
            ++ insn.opcode.render
        ∧ e.location = insn.debug_info.location.toList :=
  ⟨rfl, C1_final_artifact_concrete.2 exEnv exProgVirtual [] true false
    exProgVirtualC5 rfl (by decide)⟩

/-- C4 (counterexample): for a program consisting of a single label-marker
instruction, the instruction stream handed to the peephole optimizer still
contains that label marker — label resolution is not complete (Phase B,
`strip_labels`, runs only after peephole), refuting the claim that the
peephole pass sees no label-marker instructions. -/
theorem C4_peephole_input_contains_marker :
    postlink_peephole_input exMarkerProg
      = .ok [Instruction.from_opcode (.Label 0) DebugInfo.default]
    ∧ isLabelMarker (Instruction.from_opcode (.Label 0) DebugInfo.default)
      = true :=
  ⟨rfl, rfl⟩

/-- C9: every artifact `postlink_compile` produces has `Value::none()` as
its `static_val`; the finalized jump table reaches the artifact only
through the embedder's patch of the bootstrap slot (the stream that the
final conversion turns into `lp.code`), never through the static value
field. -/
theorem C9_static_val_is_none :
    ∀ env program fic tm d lp,
      postlink_compile env program fic tm d = some (.ok lp) →
      lp.static_val = Value.none
      ∧ ∃ code_5, postlink_hardcoded program tm = some (.ok code_5)
        ∧ finalize_code code_5 = .ok lp.code := by
  intro env program fic tm d lp h
  rcases postlink_compile_ok_inv env program fic tm d lp h with
    ⟨code_5, hhard, hfin, _, hstatic, _⟩
  exact ⟨hstatic, code_5, hhard, hfin⟩

/-- C9 (witness): a concrete successful run has `static_val = none`. -/
theorem C9_static_val_is_none_witness :
    postlink_compile exEnv exProg [] true false = some (.ok exProgOut)
    ∧ (exProgOut.static_val = Value.none
      ∧ ∃ code_5, postlink_hardcoded exProg true = some (.ok code_5)
        ∧ finalize_code code_5 = .ok exProgOut.code) :=
  ⟨rfl, C9_static_val_is_none exEnv exProg [] true false exProgOut rfl⟩

/-- C7 (amended): the artifact's `arbos_version` is the
`ArbosVersionNumber` value read from the external configuration file
inside `postlink_compile` at link time (truncated to 64 bits), so the
version depends on the configuration contents and is not an explicit value
injected by the caller. -/
theorem C7_version_from_external_config :
    ∀ env program fic tm d lp,
      postlink_compile env program fic tm d = some (.ok lp) →
      arbos_version_from env = some lp.arbos_version := by
  intro env program fic tm d lp h
  rcases postlink_compile_ok_inv env program fic tm d lp h with
    ⟨code_5, _, _, hver, _⟩
  exact hver

/-- C7 (witness): the concrete run under `exEnv` reads version 35 from the
configuration file. -/
theorem C7_version_from_external_config_witness :
    postlink_compile exEnv exProg [] true false = some (.ok exProgOut)
    ∧ arbos_version_from exEnv = some exProgOut.arbos_version :=
  ⟨rfl, C7_version_from_external_config exEnv exProg [] true false
    exProgOut rfl⟩

/-- C6 (counterexample): `link` applied to an empty list of translation
units panics (the `progs[0]` indexing; `Option.none` is the panic marker
of the model), refuting the claim that every pipeline stage returns
normally on every input. -/
theorem C6_link_panics_on_empty_input :
    link [] [] false = Option.none := rfl

/-- C6 (amended): `link` returns normally on every nonempty unit list, and
`postlink_compile` returns normally whenever the jump-table patch slot
exists with an immediate and the external constants table provides the
version key; outside these preconditions the stages panic (unchecked
indexing and `unwrap`). -/
theorem C6_stages_return_normally :
    (∀ progs globals tm, progs ≠ [] →
        (link progs globals tm).isSome = true)
    ∧ (∀ env program fic tm d,
        patch_slot_ok program tm = true →
        (arbos_version_from env).isSome = true →
        (postlink_compile env program fic tm d).isSome = true) := by
  constructor
  · intro progs globals tm hne
    cases progs with
    | nil => exact absurd rfl hne
    | cons p0 rest => simp [link]
  · intro env program fic tm d hslot hver
    unfold postlink_compile
    cases h5 : postlink_code5 program with
    | error e =>
      have : postlink_hardcoded program tm = some (.error e) := by
        unfold postlink_hardcoded; rw [h5]
      rw [this]
      rfl
    | ok pair =>
      rcases pair with ⟨code_5, jt⟩
      unfold patch_slot_ok at hslot
      rw [h5] at hslot
      dsimp only at hslot
      cases hget : code_5.get? (if tm then 1 else 2) with
      | none => rw [hget] at hslot; simp at hslot
      | some insn =>
        rw [hget] at hslot
        simp only [Option.some_bind] at hslot
        cases himm : insn.immediate with
        | none => rw [himm] at hslot; simp at hslot
        | some old_imm =>
          have hh : postlink_hardcoded program tm
              = some (.ok (code_5.set (if tm then 1 else 2)
                (Instruction.from_opcode_imm insn.opcode
                  (old_imm.replace_last_none
                    (jump_table_to_value jt)) insn.debug_info))) := by
            unfold postlink_hardcoded
            rw [h5]
            dsimp only
            unfold hardcode_jump_table_into_register
            dsimp only
            rw [hget]
            dsimp only
            rw [himm]
            rfl
          rw [hh]
          dsimp only
          cases hfin : finalize_code (code_5.set (if tm then 1 else 2)
              (Instruction.from_opcode_imm insn.opcode
                (old_imm.replace_last_none
                  (jump_table_to_value jt)) insn.debug_info)) with
          | error e => rfl
          | ok code_final =>
            cases hv : arbos_version_from env with
            | none => rw [hv] at hver; simp at hver
            | some version => rfl

/-- C6 (witness): concrete runs satisfying the amended preconditions
return normally. -/
theorem C6_stages_return_normally_witness :
    (link [exUnit] [exGlobal] true).isSome = true
    ∧ (postlink_compile exEnv exProg [] true false).isSome = true :=
  ⟨C6_stages_return_normally.1 [exUnit] [exGlobal] true
      (List.cons_ne_nil _ _),
    C6_stages_return_normally.2 exEnv exProg [] true false rfl rfl⟩

/-- Phase A preserves the opcode of every instruction (it only rewrites
immediates and records pending labels). -/
theorem fixNFAux_opcode_map (code : List Instruction) :
    ∀ idx defs jt,
      ((fixNFAux code idx defs jt).1).map (fun i => i.opcode)
        = code.map (fun i => i.opcode) := by
  induction code with
  | nil => intro idx defs jt; rfl
  | cons insn rest ih =>
    intro idx defs jt
    rw [fixNFAux]
    split
    · simp [ih]
    · split
      · split
        · simp [ih]
        · simp [ih]
      · simp [ih]

/-- The label markers of a stream are determined by its opcode sequence. -/
theorem filterMap_markerLabel_eq_opcodes (c : List Instruction) :
    c.filterMap markerLabel
      = (c.map (fun i => i.opcode)).filterMap opLabel := by
  induction c with
  | nil => rfl
  | cons i rest ih =>
    have hsc : markerLabel i = opLabel i.opcode := rfl
    cases hml : markerLabel i with
    | none =>
      have hop : opLabel i.opcode = Option.none := by rw [← hsc, hml]
      simp only [List.map_cons, List.filterMap_cons, hml, hop, ih]
    | some l =>
      have hop : opLabel i.opcode = some l := by rw [← hsc, hml]
      simp only [List.map_cons, List.filterMap_cons, hml, hop, ih]

/-- A lowered flat-access sequence contains no label markers. -/
theorem filterMap_markerLabel_tgets (l : List Nat) (d : DebugInfo) :
    (l.map (fun j =>
        Instruction.from_opcode_imm (.AVMOpcode .Tget) (Value.int j) d)
      ).filterMap markerLabel = [] := by
  induction l with
  | nil => rfl
  | cons x xs ih =>
    simp only [List.map_cons, List.filterMap_cons]
    exact ih

/-- Tuple normalization of one instruction preserves its label marker,
if any. -/
theorem fix_tuple_insn_markers (i : Instruction) :
    (fix_tuple_insn i).filterMap markerLabel
      = [i].filterMap markerLabel := by
  unfold fix_tuple_insn
  cases hop : i.opcode with
  | TupleGet offset size =>
    rw [filterMap_markerLabel_tgets]
    have hml : markerLabel i = Option.none := by
      unfold markerLabel
      rw [hop]
      rfl
    simp [List.filterMap_cons, hml]
  | AVMOpcode op =>
    have hml : markerLabel i = Option.none := by
      unfold markerLabel
      rw [hop]
      rfl
    have h1 : markerLabel ⟨Opcode.AVMOpcode op, i.immediate.map fix_value,
        i.debug_info⟩ = Option.none := rfl
    simp only [List.filterMap_cons, hml, h1]
  | Label l =>
    have hml : markerLabel i = some l := by
      unfold markerLabel
      rw [hop]
      rfl
    have h1 : markerLabel ⟨Opcode.Label l, i.immediate.map fix_value,
        i.debug_info⟩ = some l := rfl
    simp only [List.filterMap_cons, hml, h1]
  | Virtual s =>
    have hml : markerLabel i = Option.none := by
      unfold markerLabel
      rw [hop]
      rfl
    have h1 : markerLabel ⟨Opcode.Virtual s, i.immediate.map fix_value,
        i.debug_info⟩ = Option.none := rfl
    simp only [List.filterMap_cons, hml, h1]

/-- Tuple normalization preserves the sequence of label markers. -/
theorem fix_tuple_size_markers (c : List Instruction) :
    ((c.map fix_tuple_insn).flatten).filterMap markerLabel
      = c.filterMap markerLabel := by
  induction c with
  | nil => rfl
  | cons i rest ih =>
    rw [List.map_cons, List.flatten_cons, List.filterMap_append,
      fix_tuple_insn_markers i, ih]
    cases hml : markerLabel i with
    | none => simp [List.filterMap_cons, hml]
    | some l => simp [List.filterMap_cons, hml]

/-- C4 (amended): the peephole optimizer runs after Phase A backward-label
fixing and after tuple normalization, but before final label resolution
(`strip_labels`), so label resolution is not complete at that point: every
label marker of the merged input code is still present — same labels, same
order — in the stream given to the peephole pass, and `strip_labels` is
applied only to the peephole output. -/
theorem C4_pipeline_order :
    (∀ program c3, postlink_peephole_input program = .ok c3 →
        c3.filterMap markerLabel = program.code.filterMap markerLabel)
    ∧ (∀ program, postlink_code4 program
        = (postlink_peephole_input program).map peephole)
    ∧ (∀ program, postlink_code5 program
        = (postlink_code4 program).bind
            (fun c4 => strip_labels c4 (postlink_code2 program).2)) := by
  refine ⟨?_, fun _ => rfl, fun _ => rfl⟩
  intro program c3 h
  unfold postlink_peephole_input fix_tuple_size at h
  simp only [Except.ok.injEq] at h
  subst h
  rw [fix_tuple_size_markers]
  rw [filterMap_markerLabel_eq_opcodes,
    filterMap_markerLabel_eq_opcodes program.code]
  unfold postlink_code2 fix_nonforward_labels
  rw [fixNFAux_opcode_map program.code 0 [] []]

/-- C4 (witness): for a concrete merged program with a forward reference
and a label marker, the peephole input is computed and keeps the label
marker. -/
theorem C4_pipeline_order_witness :
    postlink_peephole_input exUnit = .ok exUnit.code
    ∧ exUnit.code.filterMap markerLabel
      = exUnit.code.filterMap markerLabel :=
  ⟨rfl, C4_pipeline_order.1 exUnit exUnit.code rfl⟩

/-- `link` on a nonempty unit list, written out. -/
theorem link_some (p0 : CompiledProgram) (rest : List CompiledProgram)
    (globals : List GlobalVar) (tm : Bool) :
    link (p0 :: rest) globals tm
      = some (CompiledProgram.new
          ((if globals.any (fun x => x.debug_info.attributes.codegen_print)
              then (link_prologue tm globals).map mark_codegen_print
              else link_prologue tm globals)
            ++ ((relocate_all
                  ((p0 :: rest).zip (link_int_offsets (p0 :: rest))) 0).map
                (fun p => p.code)).flatten)
          globals (some (link_merged_sfm (p0 :: rest)))
          (link_merged_fic (p0 :: rest)) p0.type_tree) := rfl

/-- C3: the prologue built by `link` is, in normal mode,
`[Rpush, Noop(none-value), Rset(uninitialized-globals-tuple)]` and, in test
mode, `[Noop(none-value), Noop(uninitialized-globals-tuple), Rset]`; the
embedder patches the operand of the instruction at index 2 in normal mode
and at index 1 in test mode, leaving every other instruction unchanged. -/
theorem C3_prologue_shape_and_patch_target :
    (∀ progs globals tm out, link progs globals tm = some out →
        (out.code.take 3).map (fun i => (i.opcode, i.immediate))
          = if tm then
              [(.AVMOpcode .Noop, some Value.none),
                (.AVMOpcode .Noop,
                  some (make_uninitialized_tuple globals.length)),
                (.AVMOpcode .Rset, Option.none)]
            else
              [(.AVMOpcode .Rpush, Option.none),
                (.AVMOpcode .Noop, some Value.none),
                (.AVMOpcode .Rset,
                  some (make_uninitialized_tuple globals.length))])
    ∧ (∀ code jump_table tm insn old_imm,
        code.get? (if tm then 1 else 2) = some insn →
        insn.immediate = some old_imm →
        hardcode_jump_table_into_register code jump_table tm
          = some (code.set (if tm then 1 else 2)
              (Instruction.from_opcode_imm insn.opcode
                (old_imm.replace_last_none jump_table) insn.debug_info))) := by
  constructor
  · intro progs globals tm out h
    cases progs with
    | nil => exact absurd h (by simp [link])
    | cons p0 rest =>
      rw [link_some] at h
      simp only [Option.some.injEq] at h
      subst h
      by_cases hdbg :
          globals.any (fun x => x.debug_info.attributes.codegen_print)
      · cases tm <;>
          simp [hdbg, link_prologue, mark_codegen_print, CompiledProgram.new,
            Instruction.from_opcode, Instruction.from_opcode_imm]
      · cases tm <;>
          simp [hdbg, link_prologue, CompiledProgram.new,
            Instruction.from_opcode, Instruction.from_opcode_imm]
  · intro code jump_table tm insn old_imm hget himm
    unfold hardcode_jump_table_into_register
    dsimp only
    rw [hget]
    dsimp only
    rw [himm]

/-- C3 (witness): the concrete test-mode run shows the test prologue and
the index-1 patch. -/
theorem C3_prologue_shape_and_patch_target_witness :
    link [exUnit] [exGlobal] true = some exLinked
    ∧ (exLinked.code.take 3).map (fun i => (i.opcode, i.immediate))
      = [(.AVMOpcode .Noop, some Value.none),
          (.AVMOpcode .Noop, some (make_uninitialized_tuple 1)),
          (.AVMOpcode .Rset, Option.none)]
    ∧ hardcode_jump_table_into_register exProg.code (Value.int 9) true
      = some (exProg.code.set 1
          (Instruction.from_opcode_imm (.AVMOpcode .Noop)
            ((make_uninitialized_tuple 1).replace_last_none (Value.int 9))
            DebugInfo.default)) :=
  ⟨rfl,
    C3_prologue_shape_and_patch_target.1 [exUnit] [exGlobal] true exLinked
      rfl,
    C3_prologue_shape_and_patch_target.2 exProg.code (Value.int 9) true
      ⟨.AVMOpcode .Noop, some (make_uninitialized_tuple 1),
        DebugInfo.default⟩
      (make_uninitialized_tuple 1) rfl rfl⟩

/-- The offsets vector has one entry per unit. -/
theorem link_int_offsets_from_length (progs : List CompiledProgram) :
    ∀ s, (link_int_offsets_from s progs).length = progs.length := by
  induction progs with
  | nil => intro s; rfl
  | cons p ps ih => intro s; simp [link_int_offsets_from, ih]

/-- Entry `i` of the offsets vector is the start plus the code lengths of
the units before unit `i`. -/
theorem link_int_offsets_from_get (progs : List CompiledProgram) :
    ∀ s i, i < progs.length →
      (link_int_offsets_from s progs).get? i
        = some (s + ((progs.take i).map (fun p => p.code.length)).sum) := by
  induction progs with
  | nil => intro s i hi; simp at hi
  | cons p ps ih =>
    intro s i hi
    cases i with
    | zero => simp [link_int_offsets_from]
    | succ j =>
      simp only [link_int_offsets_from, List.get?_cons_succ]
      rw [ih (s + p.code.length) j (by simpa using hi)]
      simp [Nat.add_assoc]

/-- The relocation loop emits, unit by unit, the unit's code with each
instruction shifted by the unit's recorded offset. -/
theorem relocate_all_codes (pairs : List (CompiledProgram × Nat)) :
    ∀ f, (relocate_all pairs f).map (fun p => p.code)
      = pairs.map (fun pr => pr.1.code.map (relocate_insn pr.2)) := by
  induction pairs with
  | nil => intro f; rfl
  | cons pr rest ih =>
    intro f
    simp [relocate_all, CompiledProgram.relocate, ih]

/-- Total length of the relocated units' code. -/
theorem relocated_flatten_length (progs : List CompiledProgram) :
    ∀ offs : List Nat, progs.length ≤ offs.length →
      ((progs.zip offs).map
          (fun pr => pr.1.code.map (relocate_insn pr.2))).flatten.length
        = (progs.map (fun p => p.code.length)).sum := by
  induction progs with
  | nil => intro offs _; rfl
  | cons p ps ih =>
    intro offs hlen
    cases offs with
    | nil => simp at hlen
    | cons o os =>
      simp only [List.zip_cons_cons, List.map_cons, List.flatten_cons,
        List.length_append, List.length_map, List.sum_cons]
      rw [ih os (by simpa using hlen)]

/-- The (possibly debug-marked) prologue is three instructions long. -/
theorem link_prologue_length (tm : Bool) (globals : List GlobalVar) :
    (link_prologue tm globals).length = 3 := by
  cases tm <;> rfl

/-- C2: merging units of code lengths `L1..Lk` yields total code length
`3 + L1 + ... + Lk` (prologue length 3), and unit `i`'s recorded
relocation offset — the shift `link` applies to its instructions — is
exactly `3` plus the sum of the code lengths of the units before it, in
input order. -/
theorem C2_merge_offset_law :
    (∀ progs globals tm out, link progs globals tm = some out →
        out.code.length = 3 + (progs.map (fun p => p.code.length)).sum)
    ∧ (∀ progs : List CompiledProgram, ∀ i, i < progs.length →
        (link_int_offsets progs).get? i
          = some (3 + ((progs.take i).map (fun p => p.code.length)).sum)) := by
  constructor
  · intro progs globals tm out h
    cases progs with
    | nil => exact absurd h (by simp [link])
    | cons p0 rest =>
      rw [link_some] at h
      simp only [Option.some.injEq] at h
      subst h
      dsimp only [CompiledProgram.new]
      rw [List.length_append, relocate_all_codes,
        relocated_flatten_length (p0 :: rest)
          (link_int_offsets (p0 :: rest))
          (by rw [link_int_offsets, link_int_offsets_from_length])]
      have h3 : (if globals.any
            (fun x => x.debug_info.attributes.codegen_print) then
          (link_prologue tm globals).map mark_codegen_print
        else link_prologue tm globals).length = 3 := by
        split
        · rw [List.length_map, link_prologue_length]
        · rw [link_prologue_length]
      rw [h3]
  · intro progs i hi
    exact link_int_offsets_from_get progs 3 i hi

/-- C2 (witness): the two-unit concrete link has code length
`3 + 3 + 2 = 8`, and unit 1's recorded offset is `3 + 3 = 6`. -/
theorem C2_merge_offset_law_witness :
    exLinked2.code.length
      = 3 + ([exUnit, exUnit2].map (fun p => p.code.length)).sum
    ∧ (link_int_offsets [exUnit, exUnit2]).get? 1
      = some (3 + (([exUnit, exUnit2].take 1).map
          (fun p => p.code.length)).sum) :=
  ⟨C2_merge_offset_law.1 [exUnit, exUnit2] [exGlobal] true exLinked2 rfl,
    C2_merge_offset_law.2 [exUnit, exUnit2] 1 (by decide)⟩

/-- `sameExceptTypeTree` is reflexive. -/
theorem sameExceptTypeTree_refl (p : CompiledProgram) :
    sameExceptTypeTree p p := ⟨rfl, rfl, rfl, rfl⟩

/-- Units agreeing outside the type tree produce the same offsets. -/
theorem offsets_congr {rest rest' : List CompiledProgram}
    (h : List.Forall₂ sameExceptTypeTree rest rest') :
    ∀ s, link_int_offsets_from s rest = link_int_offsets_from s rest' := by
  induction h with
  | nil => intro s; rfl
  | cons hpq hrest ih =>
    intro s
    simp only [link_int_offsets_from]
    rw [hpq.1, ih]

/-- Units agreeing outside the type tree produce the same merged
source-file map. -/
theorem sfm_fold_congr {l l' : List CompiledProgram}
    (h : List.Forall₂ sameExceptTypeTree l l') :
    ∀ acc : SourceFileMap,
      l.foldl
          (fun m p =>
            m.push p.code.length
              (match p.source_file_map with
                | some sfm => sfm.get 0
                | Option.none => []))
          acc
        = l'.foldl
            (fun m p =>
              m.push p.code.length
                (match p.source_file_map with
                  | some sfm => sfm.get 0
                  | Option.none => []))
            acc := by
  induction h with
  | nil => intro acc; rfl
  | cons hpq hrest ih =>
    intro acc
    simp only [List.foldl_cons]
    rw [hpq.1, hpq.2.2.1, ih]

/-- Units agreeing outside the type tree produce the same merged file-info
chart. -/
theorem fic_fold_congr {l l' : List CompiledProgram}
    (h : List.Forall₂ sameExceptTypeTree l l') :
    ∀ acc : List (Nat × FileInfo),
      l.foldl (fun m p => aextend m p.file_info_chart) acc
        = l'.foldl (fun m p => aextend m p.file_info_chart) acc := by
  induction h with
  | nil => intro acc; rfl
  | cons hpq hrest ih =>
    intro acc
    simp only [List.foldl_cons]
    rw [hpq.2.2.2, ih]

/-- Units agreeing outside the type tree produce the same relocated code. -/
theorem reloc_map_congr {l l' : List CompiledProgram}
    (h : List.Forall₂ sameExceptTypeTree l l') :
    ∀ offs : List Nat,
      (l.zip offs).map (fun pr => pr.1.code.map (relocate_insn pr.2))
        = (l'.zip offs).map
            (fun pr => pr.1.code.map (relocate_insn pr.2)) := by
  induction h with
  | nil => intro offs; rfl
  | cons hpq hrest ih =>
    intro offs
    cases offs with
    | nil => rfl
    | cons o os =>
      simp only [List.zip_cons_cons, List.map_cons]
      rw [hpq.1, ih os]

/-- C10: the merged program's type tree is exactly the first unit's type
tree, and the type trees of all units after the first have no effect on
`link`'s output at all. -/
theorem C10_type_tree_from_first_unit :
    ∀ p0 rest rest' globals tm,
      List.Forall₂ sameExceptTypeTree rest rest' →
      (link (p0 :: rest) globals tm = link (p0 :: rest') globals tm
        ∧ ∀ out, link (p0 :: rest) globals tm = some out →
            out.type_tree = p0.type_tree) := by
  intro p0 rest rest' globals tm h
  have hcons : List.Forall₂ sameExceptTypeTree (p0 :: rest) (p0 :: rest') :=
    List.Forall₂.cons (sameExceptTypeTree_refl p0) h
  constructor
  · rw [link_some, link_some]
    have hoff : link_int_offsets (p0 :: rest)
        = link_int_offsets (p0 :: rest') := by
      unfold link_int_offsets
      simp only [link_int_offsets_from]
      rw [offsets_congr h]
    rw [relocate_all_codes, relocate_all_codes, hoff,
      reloc_map_congr hcons (link_int_offsets (p0 :: rest'))]
    unfold link_merged_sfm link_merged_fic
    rw [sfm_fold_congr hcons SourceFileMap.new_empty, fic_fold_congr hcons []]
  · intro out h2
    rw [link_some] at h2
    simp only [Option.some.injEq] at h2
    subst h2
    rfl

/-- C10 (witness): changing the second unit's type tree leaves `link`'s
output unchanged, and the concrete merged program carries the first unit's
type tree. -/
theorem C10_type_tree_from_first_unit_witness :
    (link [exUnit, exUnit2] [exGlobal] true
        = link [exUnit, exUnit2tt] [exGlobal] true)
    ∧ link [exUnit, exUnit2] [exGlobal] true = some exLinked2
    ∧ exLinked2.type_tree = exUnit.type_tree :=
  ⟨(C10_type_tree_from_first_unit exUnit [exUnit2] [exUnit2tt] [exGlobal]
      true (List.Forall₂.cons ⟨rfl, rfl, rfl, rfl⟩ List.Forall₂.nil)).1,
    rfl,
    (C10_type_tree_from_first_unit exUnit [exUnit2] [exUnit2tt] [exGlobal]
      true (List.Forall₂.cons ⟨rfl, rfl, rfl, rfl⟩ List.Forall₂.nil)).2
      exLinked2 rfl⟩

/-- The separator is a prefix of a two-or-longer string exactly when the
first two characters are `,` and space. -/
theorem sep_isPrefixOf_two (c d : Char) (xs : Str) :
    sepChars.isPrefixOf (c :: d :: xs) = true ↔ (c = ',' ∧ d = ' ') := by
  simp [sepChars, List.isPrefixOf]
  constructor
  · rintro ⟨h1, h2⟩; exact ⟨h1.symm, h2.symm⟩
  · rintro ⟨h1, h2⟩; exact ⟨h1.symm, h2.symm⟩

/-- The separator is never a prefix of a one-character string. -/
theorem sep_isPrefixOf_single (c : Char) :
    sepChars.isPrefixOf [c] = false := by
  simp [sepChars, List.isPrefixOf]

/-- If the separator is a prefix, the string starts with `,`. -/
theorem sep_isPrefixOf_head (c : Char) (xs : Str)
    (h : sepChars.isPrefixOf (c :: xs) = true) : c = ',' := by
  cases xs with
  | nil => rw [sep_isPrefixOf_single] at h; cases h
  | cons d ys => exact ((sep_isPrefixOf_two c d ys).mp h).1

/-- Unfolding of `containsSep` on a cons cell. -/
theorem containsSep_cons (c : Char) (s : Str) :
    containsSep (c :: s)
      = (sepChars.isPrefixOf (c :: s) || containsSep s) := rfl

/-- Strings without a comma do not contain the separator. -/
theorem containsSep_eq_false_of_no_comma (s : Str)
    (h : ∀ c ∈ s, c ≠ ',') : containsSep s = false := by
  induction s with
  | nil => rfl
  | cons c rest ih =>
    rw [containsSep_cons]
    cases hpre : sepChars.isPrefixOf (c :: rest) with
    | true =>
      exact absurd (sep_isPrefixOf_head c rest hpre)
        (h c (List.mem_cons_self _ _))
    | false =>
      simp only [Bool.false_or]
      exact ih (fun x hx => h x (List.mem_cons_of_mem _ hx))

/-- The split loop is independent of the fuel, once sufficient. -/
theorem splitOnSepFuel_irrel :
    ∀ f g s, s.length < f → s.length < g →
      splitOnSepFuel f s = splitOnSepFuel g s := by
  intro f
  induction f with
  | zero => intro g s hf _; simp at hf
  | succ f ih =>
    intro g s hf hg
    cases g with
    | zero => simp at hg
    | succ g =>
      cases s with
      | nil => rfl
      | cons c rest =>
        simp only [splitOnSepFuel]
        have hdrop : (List.drop sepChars.length (c :: rest)).length < f := by
          simp only [List.length_drop, List.length_cons] at *
          simp only [sepChars, List.length_cons, List.length_nil] at *
          omega
        have hdrop' : (List.drop sepChars.length (c :: rest)).length < g := by
          simp only [List.length_drop, List.length_cons] at *
          simp only [sepChars, List.length_cons, List.length_nil] at *
          omega
        have hrest : rest.length < f := by
          simp only [List.length_cons] at hf; omega
        have hrest' : rest.length < g := by
          simp only [List.length_cons] at hg; omega
        rw [ih g _ hdrop hdrop', ih g rest hrest hrest']

/-- One-step unfolding of `splitOnSep` on a cons cell. -/
theorem splitOnSep_cons (c : Char) (rest : Str) :
    splitOnSep (c :: rest)
      = if sepChars.isPrefixOf (c :: rest) then
          [] :: splitOnSep (List.drop sepChars.length (c :: rest))
        else
          match splitOnSep rest with
          | [] => [[c]]
          | piece :: pieces => (c :: piece) :: pieces := by
  show splitOnSepFuel ((c :: rest).length + 1) (c :: rest) = _
  rw [splitOnSepFuel]
  simp only [List.length_cons]
  have hrw : splitOnSepFuel (rest.length + 1)
        (List.drop sepChars.length (c :: rest))
      = splitOnSep (List.drop sepChars.length (c :: rest)) := by
    apply splitOnSepFuel_irrel
    · simp only [List.length_drop, List.length_cons, sepChars,
        List.length_nil]
      omega
    · omega
  rw [hrw]
  rfl

/-- A separator-free string splits into itself alone. -/
theorem splitOnSep_of_sepFree (s : Str) (h : containsSep s = false) :
    splitOnSep s = [s] := by
  induction s with
  | nil => rfl
  | cons c rest ih =>
    rw [containsSep_cons, Bool.or_eq_false_iff] at h
    rw [splitOnSep_cons, h.1]
    simp only [Bool.false_eq_true, if_false]
    rw [ih h.2]

/-- Splitting a separator-free chunk followed by the separator peels off
exactly that chunk. -/
theorem splitOnSep_append_sep (s : Str) (h : containsSep s = false) :
    ∀ t, splitOnSep (s ++ sepChars ++ t) = s :: splitOnSep t := by
  induction s with
  | nil =>
    intro t
    show splitOnSep (',' :: ' ' :: t) = [] :: splitOnSep t
    rw [splitOnSep_cons]
    have : sepChars.isPrefixOf (',' :: ' ' :: t) = true :=
      (sep_isPrefixOf_two ',' ' ' t).mpr ⟨rfl, rfl⟩
    rw [this]
    simp only [if_true]
    rfl
  | cons c s' ih =>
    intro t
    rw [containsSep_cons, Bool.or_eq_false_iff] at h
    have hpre : sepChars.isPrefixOf (c :: (s' ++ sepChars ++ t)) = false := by
      cases s' with
      | nil =>
        show sepChars.isPrefixOf (c :: ',' :: ' ' :: t) = false
        cases hb : sepChars.isPrefixOf (c :: ',' :: ' ' :: t) with
        | false => rfl
        | true =>
          rcases (sep_isPrefixOf_two c ',' (' ' :: t)).mp hb with ⟨_, h2⟩
          exact absurd h2 (by decide)
      | cons d s'' =>
        cases hb : sepChars.isPrefixOf (c :: d :: (s'' ++ sepChars ++ t)) with
        | false => first | rfl | exact hb
        | true =>
          rcases (sep_isPrefixOf_two c d _).mp hb with ⟨h1, h2⟩
          have : sepChars.isPrefixOf (c :: d :: s'') = true :=
            (sep_isPrefixOf_two c d s'').mpr ⟨h1, h2⟩
          rw [this] at h
          rcases h with ⟨h, _⟩
          cases h
    show splitOnSep (c :: (s' ++ sepChars ++ t)) = _
    rw [splitOnSep_cons, hpre]
    simp only [Bool.false_eq_true, if_false]
    rw [ih h.2 t]

/-- Appending one more segment to a nonempty join. -/
theorem comma_list_concat (p : List Str) (d : Str) (h : p ≠ []) :
    comma_list (p ++ [d]) = comma_list p ++ sepChars ++ d := by
  induction p with
  | nil => exact absurd rfl h
  | cons x p' ih =>
    cases p' with
    | nil => simp [comma_list]
    | cons y p'' =>
      have hstep : comma_list ((x :: y :: p'') ++ [d])
          = x ++ sepChars ++ comma_list ((y :: p'') ++ [d]) := rfl
      rw [hstep, ih (by simp)]
      simp [comma_list, List.append_assoc]

/-- Splitting undoes joining, for nonempty lists of separator-free
segments. -/
theorem splitOnSep_comma_list (parts : List Str) :
    parts ≠ [] → (∀ x ∈ parts, containsSep x = false) →
    splitOnSep (comma_list parts) = parts := by
  induction parts with
  | nil => intro h _; exact absurd rfl h
  | cons x rest ih =>
    intro _ hfree
    cases rest with
    | nil =>
      simp only [comma_list]
      exact splitOnSep_of_sepFree x (hfree x (List.mem_cons_self _ _))
    | cons y rest' =>
      simp only [comma_list]
      rw [splitOnSep_append_sep x (hfree x (List.mem_cons_self _ _))]
      rw [ih (by simp)
        (fun z hz => hfree z (List.mem_cons_of_mem _ hz))]

/-- `Char.ofNat` of a digit code point decodes to the same code point. -/
theorem digit_char_toNat (k : Nat) (h : k < 10) :
    (Char.ofNat (48 + k)).toNat = 48 + k := by
  interval_cases k <;> decide

/-- The fuel version appends its accumulator. -/
theorem natCharsFuel_append (f : Nat) :
    ∀ n acc, natCharsFuel f n acc = natCharsFuel f n [] ++ acc := by
  induction f with
  | zero => intro n acc; rfl
  | succ f ih =>
    intro n acc
    by_cases h : n < 10
    · simp [natCharsFuel, h]
    · simp only [natCharsFuel, h, if_false]
      rw [ih (n / 10) [Char.ofNat (48 + n % 10)],
        ih (n / 10) (Char.ofNat (48 + n % 10) :: acc)]
      simp [List.append_assoc]

/-- The rendering loop is independent of the fuel, once sufficient. -/
theorem natCharsFuel_irrel :
    ∀ f g n acc, n < f → n < g →
      natCharsFuel f n acc = natCharsFuel g n acc := by
  intro f
  induction f with
  | zero => intro g n acc hf _; simp at hf
  | succ f ih =>
    intro g n acc hf hg
    cases g with
    | zero => simp at hg
    | succ g =>
      by_cases h : n < 10
      · simp [natCharsFuel, h]
      · simp only [natCharsFuel, h, if_false]
        have hq : n / 10 < n := Nat.div_lt_self (by omega) (by omega)
        exact ih g (n / 10) _ (by omega) (by omega)

/-- Rendering a small number is the single digit. -/
theorem natChars_lt_ten (n : Nat) (h : n < 10) :
    natChars n = [Char.ofNat (48 + n % 10)] := by
  simp [natChars, natCharsFuel, h]

/-- Rendering a large number appends its last digit to the rendering of
the quotient. -/
theorem natChars_ge_ten (n : Nat) (h : 10 ≤ n) :
    natChars n = natChars (n / 10) ++ [Char.ofNat (48 + n % 10)] := by
  have hq : n / 10 < n := Nat.div_lt_self (by omega) (by omega)
  show natCharsFuel (n + 1) n [] = _
  rw [natCharsFuel]
  simp only [Nat.lt_irrefl, if_neg (by omega : ¬ n < 10)]
  rw [natCharsFuel_append n (n / 10) [Char.ofNat (48 + n % 10)]]
  congr 1
  exact natCharsFuel_irrel n (n / 10 + 1) (n / 10) [] (by omega) (by omega)

/-- Every character of a rendered number is a decimal digit. -/
theorem natChars_digits (n : Nat) :
    ∀ c ∈ natChars n, 48 ≤ c.toNat ∧ c.toNat ≤ 57 := by
  induction n using Nat.strong_induction_on with
  | _ n ih =>
    intro c hc
    by_cases h : n < 10
    · rw [natChars_lt_ten n h] at hc
      simp only [List.mem_singleton] at hc
      subst hc
      have := digit_char_toNat (n % 10) (Nat.mod_lt n (by omega))
      omega
    · rw [natChars_ge_ten n (by omega)] at hc
      rcases List.mem_append.mp hc with h1 | h1
      · exact ih (n / 10) (Nat.div_lt_self (by omega) (by omega)) c h1
      · simp only [List.mem_singleton] at h1
        subst h1
        have := digit_char_toNat (n % 10) (Nat.mod_lt n (by omega))
        omega

/-- A rendered number is nonempty. -/
theorem natChars_ne_nil (n : Nat) : natChars n ≠ [] := by
  by_cases h : n < 10
  · rw [natChars_lt_ten n h]; simp
  · rw [natChars_ge_ten n (by omega)]; simp

/-- A rendered number contains no separator. -/
theorem containsSep_natChars (n : Nat) :
    containsSep (natChars n) = false := by
  apply containsSep_eq_false_of_no_comma
  intro c hc hcomma
  have hdig := natChars_digits n c hc
  rw [hcomma] at hdig
  have h44 : (',' : Char).toNat = 44 := rfl
  rw [h44] at hdig
  omega

/-- The parse loop distributes over append. -/
theorem parseDigitsGo_append (xs : List Char) :
    ∀ ys a, parseDigitsGo (xs ++ ys) a
      = (parseDigitsGo xs a).bind (fun b => parseDigitsGo ys b) := by
  induction xs with
  | nil => intro ys a; rfl
  | cons c cs ih =>
    intro ys a
    simp only [List.cons_append, parseDigitsGo]
    by_cases h : 48 ≤ c.toNat ∧ c.toNat ≤ 57
    · simp only [h, if_true]
      exact ih ys (a * 10 + (c.toNat - 48))
    · simp [h]

/-- Parsing undoes rendering. -/
theorem parseDigitsGo_natChars (n : Nat) :
    parseDigitsGo (natChars n) 0 = some n := by
  induction n using Nat.strong_induction_on with
  | _ n ih =>
    by_cases h : n < 10
    · rw [natChars_lt_ten n h]
      have hd := digit_char_toNat (n % 10) (Nat.mod_lt n (by omega))
      simp only [parseDigitsGo, hd]
      rw [if_pos (by omega)]
      congr 1
      have : n % 10 = n := Nat.mod_eq_of_lt h
      omega
    · rw [natChars_ge_ten n (by omega),
        parseDigitsGo_append (natChars (n / 10))
          [Char.ofNat (48 + n % 10)] 0,
        ih (n / 10) (Nat.div_lt_self (by omega) (by omega))]
      have hd := digit_char_toNat (n % 10) (Nat.mod_lt n (by omega))
      simp only [Option.some_bind, parseDigitsGo, hd]
      rw [if_pos (by omega)]
      congr 1
      have := Nat.div_add_mod n 10
      omega

/-- `parseDigits` undoes `natChars`. -/
theorem parseDigits_natChars (n : Nat) :
    parseDigits (natChars n) = some n := by
  cases hne : natChars n with
  | nil => exact absurd hne (natChars_ne_nil n)
  | cons c cs =>
    unfold parseDigits
    rw [← hne, parseDigitsGo_natChars n]
    rw [hne]

/-- Splitting a well-formed serialized key recovers the path segments
followed by the rendered id. -/
theorem splitOnSep_typeTreeKey (p : List Str) (i : Nat)
    (hne : p ≠ []) (hfree : ∀ s ∈ p, containsSep s = false) :
    splitOnSep (typeTreeKey p i) = p ++ [natChars i] := by
  unfold typeTreeKey
  rw [← comma_list_concat p (natChars i) hne]
  apply splitOnSep_comma_list
  · simp
  · intro x hx
    rcases List.mem_append.mp hx with h | h
    · exact hfree x h
    · simp only [List.mem_singleton] at h
      subst h
      exact containsSep_natChars i

/-- The serialized key determines the composite key, on well-formed keys. -/
theorem typeTreeKey_inj (k1 k2 : List Str × Nat)
    (h1 : goodKey k1) (h2 : goodKey k2)
    (heq : typeTreeKey k1.1 k1.2 = typeTreeKey k2.1 k2.2) : k1 = k2 := by
  rcases k1 with ⟨p1, i1⟩
  rcases k2 with ⟨p2, i2⟩
  have e1 := splitOnSep_typeTreeKey p1 i1 h1.1 h1.2
  have e2 := splitOnSep_typeTreeKey p2 i2 h2.1 h2.2
  rw [heq, e2] at e1
  have hd := congrArg List.dropLast e1
  rw [List.dropLast_concat, List.dropLast_concat] at hd
  have hl := congrArg List.getLast? e1
  rw [List.getLast?_concat, List.getLast?_concat] at hl
  simp only [Option.some.injEq] at hl
  have hparse := congrArg parseDigits hl
  rw [parseDigits_natChars, parseDigits_natChars] at hparse
  simp only [Option.some.injEq] at hparse
  rw [Prod.mk.injEq]
  exact ⟨hd.symm, hparse.symm⟩

/-- A key absent from the association list looks up to nothing. -/
theorem alookup_eq_none {α β : Type} [DecidableEq α] (k : α)
    (m : List (α × β)) (h : k ∉ m.map Prod.fst) :
    alookup k m = Option.none := by
  induction m with
  | nil => rfl
  | cons e rest ih =>
    rcases e with ⟨k', v⟩
    simp only [List.map_cons, List.mem_cons] at h
    push_neg at h
    unfold alookup
    rw [if_neg (fun hh => h.1 hh.symm)]
    exact ih h.2

/-- Inserting a fresh key appends the binding. -/
theorem ainsert_fresh {α β : Type} [DecidableEq α] (m : List (α × β))
    (k : α) (v : β) (h : k ∉ m.map Prod.fst) :
    ainsert m k v = m ++ [(k, v)] := by
  unfold ainsert
  rw [alookup_eq_none k m h]
  rfl

/-- Folding fresh inserts over distinct keys appends the bindings in
order. -/
theorem foldl_ainsert_nodup {α β : Type} [DecidableEq α]
    (entries : List (α × β)) :
    ∀ acc, ((acc ++ entries).map Prod.fst).Nodup →
      entries.foldl (fun m e => ainsert m e.1 e.2) acc = acc ++ entries := by
  induction entries with
  | nil => intro acc _; simp
  | cons e es ih =>
    intro acc hnd
    simp only [List.foldl_cons]
    have hdisj : (acc.map Prod.fst).Disjoint ((e :: es).map Prod.fst) := by
      rw [List.map_append] at hnd
      exact List.disjoint_of_nodup_append hnd
    have hfresh : e.1 ∉ acc.map Prod.fst := by
      intro hmem
      exact hdisj hmem (by simp)
    rw [ainsert_fresh acc e.1 e.2 hfresh]
    rw [ih (acc ++ [e]) (by simpa [List.append_assoc] using hnd)]
    simp

/-- The rendered keys of a well-formed type tree are distinct. -/
theorem rendered_keys_nodup (tree : TypeTree)
    (hgood : ∀ e ∈ tree, goodKey e.1)
    (hnodup : (tree.map (fun e => e.1)).Nodup) :
    ((tree.map renderEntry).map Prod.fst).Nodup := by
  rw [List.map_map]
  have h1 : (Prod.fst ∘ renderEntry)
      = (fun k : List Str × Nat => typeTreeKey k.1 k.2)
        ∘ (fun e : (List Str × Nat) × TypeInfo => e.1) := rfl
  rw [h1, ← List.map_map]
  refine List.Nodup.map_on ?_ hnodup
  intro x hx y hy heq
  rcases List.mem_map.mp hx with ⟨ex, hex, hx1⟩
  rcases List.mem_map.mp hy with ⟨ey, hey, hy1⟩
  subst hx1
  subst hy1
  exact typeTreeKey_inj ex.1 ey.1 (hgood ex hex) (hgood ey hey) heq

/-- On a well-formed tree, serialization is literally the rendered
binding list. -/
theorem from_type_tree_eq_map (tree : TypeTree)
    (hgood : ∀ e ∈ tree, goodKey e.1)
    (hnodup : (tree.map (fun e => e.1)).Nodup) :
    SerializableTypeTree.from_type_tree tree = ⟨tree.map renderEntry⟩ := by
  unfold SerializableTypeTree.from_type_tree
  congr 1
  have hstep : (tree.map renderEntry).foldl
        (fun m e => ainsert m e.1 e.2) []
      = tree.foldl
          (fun m e => ainsert m (typeTreeKey e.1.1 e.1.2) e.2) [] := by
    rw [List.foldl_map]
    rfl
  rw [← hstep, foldl_ainsert_nodup (tree.map renderEntry) []
    (by simpa using rendered_keys_nodup tree hgood hnodup)]
  simp

/-- Deserializing the rendered bindings of a well-formed tree rebuilds the
tree behind any disjoint accumulator. -/
theorem into_fold (tree : TypeTree) :
    ∀ acc : TypeTree,
      (∀ e ∈ tree, goodKey e.1) →
      ((acc ++ tree).map (fun e => e.1)).Nodup →
      List.foldlM
          (fun t (e : Str × TypeInfo) => do
            let x := splitOnSep e.1
            let lastPart ← x.getLast?
            let id ← parseDigits lastPart
            pure (ainsert t (x.dropLast, id) e.2))
          acc (tree.map renderEntry)
        = some (acc ++ tree) := by
  induction tree with
  | nil => intro acc _ _; simp
  | cons e0 es ih =>
    intro acc hgood hnd
    have hg : goodKey e0.1 := hgood _ (List.mem_cons_self _ _)
    simp only [List.map_cons, List.foldlM_cons]
    have hkey : splitOnSep (renderEntry e0).1
        = e0.1.1 ++ [natChars e0.1.2] :=
      splitOnSep_typeTreeKey e0.1.1 e0.1.2 hg.1 hg.2
    simp only [hkey, List.getLast?_concat, Option.bind_eq_bind,
      Option.some_bind, parseDigits_natChars, List.dropLast_concat,
      Option.pure_def]
    have hdisj : (acc.map (fun e => e.1)).Disjoint
        ((e0 :: es).map (fun e => e.1)) := by
      rw [List.map_append] at hnd
      exact List.disjoint_of_nodup_append hnd
    have hfresh : e0.1 ∉ acc.map Prod.fst := by
      intro hmem
      exact hdisj hmem (by simp)
    have hins : ainsert acc (e0.1.1, e0.1.2) (renderEntry e0).2
        = acc ++ [e0] := by
      have : (e0.1.1, e0.1.2) = e0.1 := rfl
      rw [this]
      have : (renderEntry e0).2 = e0.2 := rfl
      rw [this]
      rw [ainsert_fresh acc e0.1 e0.2 hfresh]
    rw [hins]
    have hih := ih (acc ++ [e0])
      (fun e he => hgood e (List.mem_cons_of_mem _ he))
      (by simpa [List.append_assoc] using hnd)
    rw [show (acc ++ [e0]) ++ es = acc ++ e0 :: es by simp] at hih
    exact hih

/-- C5 (amended): the serialization round trip is exact for every type
tree whose composite keys are well formed — nonempty module paths whose
segments do not contain the separator `", "` — and whose keys are
distinct; a path segment containing the separator (or an empty path)
breaks the round trip, as the counterexample shows. -/
theorem C5_type_tree_round_trip (tree : TypeTree)
    (hgood : ∀ e ∈ tree, goodKey e.1)
    (hnodup : (tree.map (fun e => e.1)).Nodup) :
    (SerializableTypeTree.from_type_tree tree).into_type_tree
      = some tree := by
  rw [from_type_tree_eq_map tree hgood hnodup]
  unfold SerializableTypeTree.into_type_tree
  have := into_fold tree [] hgood (by simpa using hnodup)
  simpa using this

/-- C5 (witness): a two-segment well-formed tree round-trips exactly. -/
theorem C5_type_tree_round_trip_witness :
    (∀ e ∈ exTreeGood, goodKey e.1)
    ∧ (SerializableTypeTree.from_type_tree exTreeGood).into_type_tree
      = some exTreeGood :=
  ⟨by decide, C5_type_tree_round_trip exTreeGood (by decide) (by decide)⟩

/-- C5 (counterexample): a type tree whose single path segment contains
the separator `", "` does not survive the round trip — the segment is
split apart on parsing — refuting exactness for every type tree. -/
theorem C5_round_trip_not_exact :
    (SerializableTypeTree.from_type_tree exTreeBad).into_type_tree
      = some exTreeBadParsed
    ∧ exTreeBadParsed ≠ exTreeBad := by
  constructor
  · decide
  · decide

end ArbLink
